import Mathlib

/-!
# PriorityQueue (game_system/utilities/c++/priority_queue.{h,cpp})

A shallow embedding of the lazy-deletion priority queue and of the two
standard-library heap primitives it calls.

Modelling decisions.

* `float score` is a number or NaN (`Score`).  The queue only compares scores,
  so that the numbers (the infinities included) are represented by integers in
  their order; a comparison with NaN is false, as for IEEE floats.
* A `boost::python::object` is a handle with an identity and the value that
  `PyObject_Hash` yields for it.  `PyObject_Hash` is not injective: two
  different objects may carry the same hash (in CPython `hash(-1) = hash(-2)`).
  The default constructed `object()` (Python `None`) returned by `pop` on an
  empty queue is `Option.none`.
* Every record is created by `new` in `add` right before `push_back` and is
  released by `delete` in `pop` right after `pop_back`, so the allocated
  records are exactly the ones the vector points to.  A slot of `m_elements`
  is therefore the pointer together with the record it points to, and a pointer
  held by `m_map` is dereferenced by looking it up among the slots.  `new`
  returns an address that no slot currently uses (addresses of released records
  may be handed out again).
* `std::unordered_map<long, PriorityQueueElement*>` is an association list
  with at most one entry per key.
* Undefined behaviour (`back()` on an empty vector, `erase(end())`, access
  through a dangling pointer) is an explicit `Fault`.
* `std::push_heap` / `std::pop_heap` follow the hole based algorithm of
  libstdc++ and of the MSVC library (`__push_heap`, `__adjust_heap`).  What the
  C++ standard requires of them is proved for this model (`push_heap_perm`,
  `push_heap_heapOn`, `pop_heap_spec`), and the general theorems about the
  queue rest on these three facts and on the fact that the primitives look at
  the entries through `comp` only (`push_heap_congr`, `pop_heap_congr`).
-/

set_option autoImplicit false

/-! ## Standard library heap primitives -/

namespace std

variable {α : Type}

/-- The loop of `std::__push_heap(first, holeIndex, topIndex, value, comp)`:
while the hole is below `top` and `comp(parent, value)`, the parent moves down
into the hole; finally `value` is stored in the hole.  The first argument
bounds the number of iterations (the hole index itself suffices). -/
def pushHeapLoop (comp : α → α → Bool) (value : α) (top : Nat) :
    Nat → List α → Nat → List α
  | 0, xs, hole => xs.set hole value
  | fuel + 1, xs, hole =>
    let parent := (hole - 1) / 2
    if top < hole ∧ comp (xs.getD parent value) value = true then
      pushHeapLoop comp value top fuel (xs.set hole (xs.getD parent value)) parent
    else
      xs.set hole value

/-- The call `std::push_heap(first, last, comp)` on the whole vector: the last entry is
the new value, the hole starts at its position and the top is the root. -/
def push_heap (comp : α → α → Bool) (xs : List α) : List α :=
  match xs.getLast? with
  | none => xs
  | some value => pushHeapLoop comp value 0 (xs.length - 1) xs (xs.length - 1)

/-- First loop of `std::__adjust_heap`: while the hole has two children inside
`[0, len)`, the child preferred by `comp` (the right one unless
`comp(right, left)`) moves up into the hole.  Returns the vector and the final
hole index. -/
def adjustDown (comp : α → α → Bool) (value : α) (len : Nat) :
    Nat → List α → Nat → List α × Nat
  | 0, xs, hole => (xs, hole)
  | fuel + 1, xs, hole =>
    if hole < (len - 1) / 2 then
      let secondChild := 2 * (hole + 1)
      let child :=
        if comp (xs.getD secondChild value) (xs.getD (secondChild - 1) value) = true
        then secondChild - 1 else secondChild
      adjustDown comp value len fuel (xs.set hole (xs.getD child value)) child
    else
      (xs, hole)

/-- The routine `std::__adjust_heap(first, holeIndex, len, value, comp)`: the hole sinks to
the bottom (`adjustDown`, then the single-child case for an even `len`), and
`value` is pushed up from there with `__push_heap`.  The comparison
`secondChild == (len - 2) / 2` is on signed integers, hence the guard
`2 ≤ len`. -/
def adjust_heap (comp : α → α → Bool) (xs : List α) (holeIndex len : Nat) (value : α) :
    List α :=
  let r := adjustDown comp value len len xs holeIndex
  let r2 : List α × Nat :=
    if len % 2 = 0 ∧ 2 ≤ len ∧ r.2 = (len - 2) / 2 then
      (r.1.set r.2 (r.1.getD (2 * (r.2 + 1) - 1) value), 2 * (r.2 + 1) - 1)
    else r
  pushHeapLoop comp value holeIndex r2.2 r2.1 r2.2

/-- The call `std::pop_heap(first, last, comp)` on the whole vector: for more than one
entry, the last entry is taken out as `value`, the root is stored in the last
position and `__adjust_heap` re-establishes the heap on the front part. -/
def pop_heap (comp : α → α → Bool) : List α → List α
  | [] => []
  | root :: rest =>
    match rest.getLast? with
    | none => [root]
    | some value => adjust_heap comp (root :: rest.dropLast) 0 rest.length value ++ [root]

end std


/-! ## Data model -/

/-- A handle to a Python object (`boost::python::object`): the identity of the
object and the value `PyObject_Hash` returns for it. -/
structure PyObj where
  ident : Nat
  hash : Int
  deriving DecidableEq, Repr

/-- The value of `PyObject_Hash(obj.ptr())`. -/
def PyObject_Hash (obj : PyObj) : Int := obj.hash

/-- A `float` score: a number or NaN. -/
inductive Score where
  | num (v : Int)
  | nan
  deriving DecidableEq, Repr

namespace Score

/-- The comparison `a > b` of two floats: false as soon as one side is NaN. -/
def gt : Score → Score → Bool
  | num x, num y => decide (x > y)
  | _, _ => false

/-- The comparison `a <= b` of two floats: false as soon as one side is NaN. -/
def le : Score → Score → Bool
  | num x, num y => decide (x ≤ y)
  | _, _ => false

end Score

instance (n : Nat) : OfNat Score n := ⟨Score.num (Int.ofNat n)⟩

/-- The record `class PriorityQueueElement` (priority_queue.h:9-23). -/
structure PriorityQueueElement where
  score : Score
  obj : PyObj
  removed : Bool
  hash : Int
  deriving DecidableEq, Repr

/-- The constructor `PriorityQueueElement(score_, obj_, hash_)`: `removed(false)`. -/
def PriorityQueueElement.create (score_ : Score) (obj_ : PyObj) (hash_ : Int) :
    PriorityQueueElement :=
  { score := score_, obj := obj_, removed := false, hash := hash_ }

/-- A slot of `std::vector<PriorityQueueElement*>`: the pointer and the record
it points to. -/
structure Slot where
  ptr : Nat
  elem : PriorityQueueElement
  deriving DecidableEq, Repr

/-- The comparator `PriorityQueueElement::compare(e1, e2)`: `e1->score > e2->score`. -/
def PriorityQueueElement.compare (e1 e2 : Slot) : Bool :=
  Score.gt e1.elem.score e2.elem.score

deriving instance DecidableEq for Except

/-- Undefined behaviour the queue can run into. -/
inductive Fault where
  /-- the call `m_elements.back()` / `pop_heap` on an empty vector -/
  | emptyVector
  /-- the call `m_map.erase(it)` with `it == m_map.end()` -/
  | eraseEnd
  /-- access through a pointer whose record is not allocated -/
  | dangling
  deriving DecidableEq, Repr

/-- The type `T_HASH_DICT`, i.e. `std::unordered_map<long, PriorityQueueElement*>`. -/
abbrev T_HASH_DICT := List (Int × Nat)

namespace T_HASH_DICT

/-- The lookup `m.find(key)`: the mapped pointer, `none` for `end()`. -/
def find (key : Int) : T_HASH_DICT → Option Nat
  | [] => none
  | (k, p) :: m => if k = key then some p else find key m

/-- The call `m.erase(it)` for the iterator of `key`. -/
def erase (key : Int) (m : T_HASH_DICT) : T_HASH_DICT :=
  m.filter (fun kv => decide (kv.1 ≠ key))

/-- The assignment `m[key] = p`. -/
def assign (key : Int) (p : Nat) (m : T_HASH_DICT) : T_HASH_DICT :=
  (key, p) :: erase key m

/-- The keys of the map. -/
def keys (m : T_HASH_DICT) : List Int := m.map Prod.fst

end T_HASH_DICT

/-- The state of `class PriorityQueue`: the Index `m_map` and the Ordered Store
`m_elements`. -/
structure PriorityQueue where
  m_map : T_HASH_DICT
  m_elements : List Slot
  deriving DecidableEq, Repr

namespace PriorityQueue

/-- The constructor `PriorityQueue::PriorityQueue()`. -/
def empty : PriorityQueue := { m_map := [], m_elements := [] }

/-- The address `new PriorityQueueElement(...)` returns: one that no allocated
record uses. -/
def alloc (q : PriorityQueue) : Nat :=
  (q.m_elements.map Slot.ptr).foldr max 0 + 1

/-- The method `PriorityQueue::add(object obj, float score)` (priority_queue.cpp:19-32). -/
def add (q : PriorityQueue) (obj : PyObj) (score : Score) : PriorityQueue :=
  let hash := PyObject_Hash obj
  let element : Slot := { ptr := q.alloc, elem := PriorityQueueElement.create score obj hash }
  { m_map := q.m_map.assign hash element.ptr,
    m_elements := std.push_heap PriorityQueueElement.compare (q.m_elements ++ [element]) }

/-- The write `element->removed = true` through the pointer `p`. -/
def markRemoved (p : Nat) (els : List Slot) : List Slot :=
  els.map (fun s => if s.ptr = p then { s with elem := { s.elem with removed := true } } else s)

/-- What a call of `remove` leaves behind: the value handed to the caller (the
function is `void`), the lines written by `puts`, and the queue. -/
structure RemoveOutcome where
  ret : Unit
  stdout : List String
  queue : PriorityQueue
  deriving DecidableEq, Repr

/-- The method `PriorityQueue::remove(object obj)` (priority_queue.cpp:40-57). -/
def remove (q : PriorityQueue) (obj : PyObj) : Except Fault RemoveOutcome :=
  let hash := PyObject_Hash obj
  match q.m_map.find hash with
  | none => .ok { ret := (), stdout := ["Not found!"], queue := q }
  | some element =>
    if q.m_elements.any (fun s => decide (s.ptr = element)) then
      .ok { ret := (), stdout := [],
            queue := { m_map := q.m_map.erase hash,
                       m_elements := markRemoved element q.m_elements } }
    else .error Fault.dangling

/-- The method `PriorityQueue::has_items()` (priority_queue.cpp:97-100). -/
def has_items (q : PriorityQueue) : Bool := !q.m_map.isEmpty

/-- The method `PriorityQueue::contains(object obj)` (priority_queue.cpp:103-109). -/
def contains (q : PriorityQueue) (obj : PyObj) : Bool :=
  (q.m_map.find (PyObject_Hash obj)).isSome

/-- The `while (true)` loop of `pop` (priority_queue.cpp:66-91).  Every
iteration takes one slot out of `m_elements`; the first argument bounds the
number of iterations and `pop` passes the length of the vector, so that it is
`0` exactly when the vector is empty. -/
def popLoop : Nat → PriorityQueue → Except Fault (PyObj × PriorityQueue)
  | 0, _ => .error Fault.emptyVector
  | fuel + 1, q =>
    let heap := std.pop_heap PriorityQueueElement.compare q.m_elements
    match heap.getLast? with
    | none => .error Fault.emptyVector
    | some element =>
      let els := heap.dropLast
      let exists_ := !element.elem.removed
      let obj := element.elem.obj
      if exists_ then
        match q.m_map.find element.elem.hash with
        | none => .error Fault.eraseEnd
        | some _ =>
          .ok (obj, { m_map := q.m_map.erase element.elem.hash, m_elements := els })
      else
        popLoop fuel { q with m_elements := els }

/-- The method `PriorityQueue::pop()` (priority_queue.cpp:59-94); `none` is the default
constructed `object()`. -/
def pop (q : PriorityQueue) : Except Fault (Option PyObj × PriorityQueue) :=
  if !q.has_items then .ok (none, q)
  else
    match popLoop q.m_elements.length q with
    | .ok (obj, q2) => .ok (some obj, q2)
    | .error f => .error f

/-- The pointee of `p`, if `p` points to an allocated record. -/
def deref (q : PriorityQueue) (p : Nat) : Option PriorityQueueElement :=
  (q.m_elements.find? (fun s => decide (s.ptr = p))).map Slot.elem

/-- The method `PriorityQueue::as_list()` (priority_queue.cpp:111-123), exported as
`to_list`. -/
def as_list (q : PriorityQueue) : Except Fault (List PyObj) :=
  q.m_map.mapM (fun kv =>
    match q.deref kv.2 with
    | some e => .ok e.obj
    | none => .error Fault.dangling)

end PriorityQueue


/-! ## Specification vocabulary -/

namespace std

variable {α : Type}

/-- The predicate `std::is_heap(first, last, comp)`: no entry is `comp`-before its child. -/
def is_heap (comp : α → α → Bool) (xs : List α) : Prop :=
  ∀ j a b, 0 < j → xs[(j - 1) / 2]? = some a → xs[j]? = some b → comp a b = false

/-- The heap condition for a comparator "greater key first", read with a
default entry `d` for positions outside the list. -/
def HeapOn (key : α → Int) (d : α) (xs : List α) : Prop :=
  ∀ j, 0 < j → j < xs.length → key (xs.getD ((j - 1) / 2) d) ≤ key (xs.getD j d)

/-- A heap with a hole: all parent/child pairs are ordered except the pair
above `hole`, the grandparent of the hole's children is not above them, and
`value` may be stored above the hole's children. -/
def HoleInv (key : α → Int) (d value : α) (xs : List α) (hole : Nat) : Prop :=
  (∀ j, 0 < j → j < xs.length → j ≠ hole →
      key (xs.getD ((j - 1) / 2) d) ≤ key (xs.getD j d)) ∧
  (∀ c, 0 < c → c < xs.length → (c - 1) / 2 = hole → 0 < hole →
      key (xs.getD ((hole - 1) / 2) d) ≤ key (xs.getD c d)) ∧
  (∀ c, 0 < c → c < xs.length → (c - 1) / 2 = hole → key value ≤ key (xs.getD c d))

end std

namespace PriorityQueue

/-- The number the score of a slot stands for (`0` for NaN). -/
def scoreOf (s : Slot) : Int :=
  match s.elem.score with
  | Score.num v => v
  | Score.nan => 0

/-- The comparator on the numbers the scores stand for; it is `compare` on
slots whose scores are not NaN. -/
def compareNum (a b : Slot) : Bool := decide (scoreOf b < scoreOf a)

/-- No slot of the list carries a NaN score. -/
def NoNaN (xs : List Slot) : Prop := ∀ s ∈ xs, s.elem.score ≠ Score.nan

instance (xs : List Slot) : Decidable (NoNaN xs) := by unfold NoNaN; infer_instance

/-- A call of the public interface. -/
inductive Op where
  | add (obj : PyObj) (score : Score)
  | remove (obj : PyObj)
  | pop
  deriving DecidableEq, Repr

/-- A call that passes no NaN score. -/
def Op.numeric : Op → Bool
  | Op.add _ score => decide (score ≠ Score.nan)
  | _ => true

/-- The states reachable from the empty queue by calls of `add`, `remove` and
`pop` that do not run into undefined behaviour. -/
inductive Reachable : PriorityQueue → Prop where
  | empty : Reachable PriorityQueue.empty
  | add {q : PriorityQueue} (obj : PyObj) (score : Score) :
      Reachable q → Reachable (q.add obj score)
  | remove {q : PriorityQueue} (obj : PyObj) {r : RemoveOutcome} :
      Reachable q → q.remove obj = .ok r → Reachable r.queue
  | pop {q : PriorityQueue} {obj : Option PyObj} {q2 : PriorityQueue} :
      Reachable q → q.pop = .ok (obj, q2) → Reachable q2

/-- Runs a sequence of calls and collects what the `pop` calls return, up to the
end of the sequence or the first fault. -/
def run : PriorityQueue → List Op → List (Option PyObj) × Except Fault PriorityQueue
  | q, [] => ([], .ok q)
  | q, Op.add obj score :: ops => run (q.add obj score) ops
  | q, Op.remove obj :: ops =>
    match q.remove obj with
    | .ok r => run r.queue ops
    | .error f => ([], .error f)
  | q, Op.pop :: ops =>
    match q.pop with
    | .ok (o, q2) => ((run q2 ops).1.cons o, (run q2 ops).2)
    | .error f => ([], .error f)

/-- Calls `pop` until it returns the empty sentinel and lists the payloads
returned; every successful `pop` erases one Index entry, so the Index size
bounds the number of calls. -/
def drainLoop : Nat → PriorityQueue → Except Fault (List PyObj)
  | 0, _ => .ok []
  | fuel + 1, q =>
    match q.pop with
    | .error f => .error f
    | .ok (none, _) => .ok []
    | .ok (some obj, q2) =>
      match drainLoop fuel q2 with
      | .ok objs => .ok (obj :: objs)
      | .error f => .error f

/-- Draining the queue. -/
def drain (q : PriorityQueue) : Except Fault (List PyObj) :=
  drainLoop (q.m_map.length + 1) q

/-- INV1 of the specification: the Index has one entry per key, and every entry
points to exactly one slot of the store, whose record carries the entry's key
and is not soft-deleted. -/
def INV1 (q : PriorityQueue) : Prop :=
  q.m_map.keys.Nodup ∧
  ∀ kv ∈ q.m_map, ∃ s ∈ q.m_elements,
    q.m_elements.filter (fun t => decide (t.ptr = kv.2)) = [s] ∧
    s.elem.hash = kv.1 ∧ s.elem.removed = false

/-- INV2 of the specification: every record of the store that is not
soft-deleted is the one the Index holds under the record's key. -/
def INV2 (q : PriorityQueue) : Prop :=
  ∀ s ∈ q.m_elements, s.elem.removed = false → q.m_map.find s.elem.hash = some s.ptr

instance (q : PriorityQueue) : Decidable (INV1 q) := by unfold INV1; infer_instance

instance (q : PriorityQueue) : Decidable (INV2 q) := by unfold INV2; infer_instance

/-- The states reachable from the empty queue when no NaN score is ever added. -/
inductive ReachableNum : PriorityQueue → Prop where
  | empty : ReachableNum PriorityQueue.empty
  | add {q : PriorityQueue} (obj : PyObj) (score : Score) :
      ReachableNum q → score ≠ Score.nan → ReachableNum (q.add obj score)
  | remove {q : PriorityQueue} (obj : PyObj) {r : RemoveOutcome} :
      ReachableNum q → q.remove obj = .ok r → ReachableNum r.queue
  | pop {q : PriorityQueue} {obj : Option PyObj} {q2 : PriorityQueue} :
      ReachableNum q → q.pop = .ok (obj, q2) → ReachableNum q2

/-- The store holds no NaN score and is a heap with respect to `compare`. -/
structure Ordered (q : PriorityQueue) : Prop where
  nonan : NoNaN q.m_elements
  heap : std.is_heap PriorityQueueElement.compare q.m_elements

/-- The facts that hold in every reachable state. -/
structure Consistent (q : PriorityQueue) : Prop where
  keys : q.m_map.keys.Nodup
  ptrs : (q.m_elements.map Slot.ptr).Nodup
  hash : ∀ s ∈ q.m_elements, s.elem.hash = PyObject_Hash s.elem.obj
  live : ∀ key p, q.m_map.find key = some p →
    ∃ s ∈ q.m_elements, s.ptr = p ∧ s.elem.hash = key ∧ s.elem.removed = false

end PriorityQueue

/-! ## Concrete payloads and scenarios -/

/-- Payload `A` of the scenarios. -/
def objA : PyObj := { ident := 1, hash := 101 }

/-- Payload `B` of the scenarios. -/
def objB : PyObj := { ident := 2, hash := 102 }

/-- Payload `C` of the scenarios. -/
def objC : PyObj := { ident := 3, hash := 103 }

/-- Payload `Z` of the scenarios. -/
def objZ : PyObj := { ident := 26, hash := 126 }

/-- The Python integer `-1`, whose hash is `-2`. -/
def objM1 : PyObj := { ident := 31, hash := -2 }

/-- The Python integer `-2`, whose hash is `-2` as well. -/
def objM2 : PyObj := { ident := 32, hash := -2 }

/-- The state after `add(A,1); add(B,2); add(C,3); remove(B)`. -/
def stateABC : PriorityQueue :=
  { m_map := [(103, 3), (101, 1)],
    m_elements :=
      [ { ptr := 1, elem := { score := 1, obj := objA, removed := false, hash := 101 } },
        { ptr := 2, elem := { score := 2, obj := objB, removed := true, hash := 102 } },
        { ptr := 3, elem := { score := 3, obj := objC, removed := false, hash := 103 } } ] }

/-- The state after `add(A,1); add(A,5)`. -/
def stateAA : PriorityQueue := (PriorityQueue.empty.add objA 1).add objA 5

/-- The state after `add(A,1); add(A,5); pop()`. -/
def stateAApop : PriorityQueue :=
  { m_map := [],
    m_elements :=
      [ { ptr := 2, elem := { score := 5, obj := objA, removed := false, hash := 101 } } ] }

/-- The state after `add(-1,1); add(-1,5); remove(-1)`. -/
def stateM1removed : PriorityQueue :=
  { m_map := [],
    m_elements :=
      [ { ptr := 1, elem := { score := 1, obj := objM1, removed := false, hash := -2 } },
        { ptr := 2, elem := { score := 5, obj := objM1, removed := true, hash := -2 } } ] }

/-- The state after `add(B,7); add(A,5); add(C,1); remove(B); pop()`. -/
def stateBA : PriorityQueue :=
  { m_map := [(101, 2)],
    m_elements :=
      [ { ptr := 2, elem := { score := 5, obj := objA, removed := false, hash := 101 } },
        { ptr := 1, elem := { score := 7, obj := objB, removed := true, hash := 102 } } ] }

/-- Payload `D` of the scenarios. -/
def objD : PyObj := { ident := 4, hash := 104 }

/-- The state after `add(A,2); add(B,nan); add(C,1); add(D,0)`. -/
def stateNaN : PriorityQueue :=
  { m_map := [(104, 4), (103, 3), (102, 2), (101, 1)],
    m_elements :=
      [ { ptr := 3, elem := { score := 1, obj := objC, removed := false, hash := 103 } },
        { ptr := 2, elem := { score := Score.nan, obj := objB, removed := false, hash := 102 } },
        { ptr := 1, elem := { score := 2, obj := objA, removed := false, hash := 101 } },
        { ptr := 4, elem := { score := 0, obj := objD, removed := false, hash := 104 } } ] }

/-- A state outside the reachable ones: an Index entry, and a store whose only
slot is soft-deleted. -/
def stateOrphan : PriorityQueue :=
  { m_map := [(101, 7)],
    m_elements :=
      [ { ptr := 2, elem := { score := 5, obj := objA, removed := true, hash := 101 } } ] }

namespace PriorityQueue

/-- The states reachable from the empty queue when `add(x, s)` is only called
while `contains(x)` is false. -/
inductive ReachableFresh : PriorityQueue → Prop where
  | empty : ReachableFresh PriorityQueue.empty
  | add {q : PriorityQueue} (obj : PyObj) (score : Score) :
      ReachableFresh q → q.contains obj = false → ReachableFresh (q.add obj score)
  | remove {q : PriorityQueue} (obj : PyObj) {r : RemoveOutcome} :
      ReachableFresh q → q.remove obj = .ok r → ReachableFresh r.queue
  | pop {q : PriorityQueue} {obj : Option PyObj} {q2 : PriorityQueue} :
      ReachableFresh q → q.pop = .ok (obj, q2) → ReachableFresh q2

end PriorityQueue

/-- The state after `add(A,1); add(B,2)`. -/
def stateAB : PriorityQueue :=
  { m_map := [(102, 2), (101, 1)],
    m_elements :=
      [ { ptr := 1, elem := { score := 1, obj := objA, removed := false, hash := 101 } },
        { ptr := 2, elem := { score := 2, obj := objB, removed := false, hash := 102 } } ] }

/-- The state after `add(A,1); add(B,2); add(C,3); remove(A)`. -/
def stateBC : PriorityQueue :=
  { m_map := [(103, 3), (102, 2)],
    m_elements :=
      [ { ptr := 1, elem := { score := 1, obj := objA, removed := true, hash := 101 } },
        { ptr := 2, elem := { score := 2, obj := objB, removed := false, hash := 102 } },
        { ptr := 3, elem := { score := 3, obj := objC, removed := false, hash := 103 } } ] }

/-- The state after `add(A,5); remove(A)`. -/
def stateAremoved : PriorityQueue :=
  { m_map := [],
    m_elements :=
      [ { ptr := 1, elem := { score := 5, obj := objA, removed := true, hash := 101 } } ] }

/-- The soft-deleted record of `B` in `stateABC`. -/
def slotB : Slot :=
  { ptr := 2, elem := { score := 2, obj := objB, removed := true, hash := 102 } }

/-- The state after `add(A,1); add(A,5); pop(); add(B,9)`. -/
def stateAApopB : PriorityQueue :=
  { m_map := [(102, 3)],
    m_elements :=
      [ { ptr := 2, elem := { score := 5, obj := objA, removed := false, hash := 101 } },
        { ptr := 3, elem := { score := 9, obj := objB, removed := false, hash := 102 } } ] }

/-! ## Correctness of the heap primitives -/

namespace std

variable {α : Type}

theorem getD_set (xs : List α) (i j : Nat) (a d : α) (hi : i < xs.length) :
    (xs.set i a).getD j d = if j = i then a else xs.getD j d := by
  by_cases h : j = i
  · subst h; simp [List.getD_eq_getElem?_getD, hi]
  · simp [List.getD_eq_getElem?_getD, List.getElem?_set_ne (Ne.symm h), h]

theorem getD_default_irrel (xs : List α) (i : Nat) (d d2 : α) (hi : i < xs.length) :
    xs.getD i d = xs.getD i d2 := by
  simp [List.getD_eq_getElem?_getD, hi]

theorem set_perm_cons_eraseIdx : ∀ (xs : List α) (i : Nat) (a : α), i < xs.length →
    (xs.set i a).Perm (a :: xs.eraseIdx i)
  | [], _, _, h => by simp at h
  | _ :: t, 0, a, _ => by simp
  | b :: t, i + 1, a, h => by
    have ih := set_perm_cons_eraseIdx t i a (by simpa using h)
    simp only [List.set_cons_succ, List.eraseIdx_cons_succ]
    exact (List.Perm.cons b ih).trans (List.Perm.swap a b _)

theorem perm_getD_cons_eraseIdx : ∀ (xs : List α) (i : Nat) (d : α), i < xs.length →
    xs.Perm (xs.getD i d :: xs.eraseIdx i)
  | [], _, _, h => by simp at h
  | _ :: t, 0, d, _ => by simp
  | b :: t, i + 1, d, h => by
    have ih := perm_getD_cons_eraseIdx t i d (by simpa using h)
    simp only [List.getD_cons_succ, List.eraseIdx_cons_succ]
    exact (List.Perm.cons b ih).trans (List.Perm.swap _ b _)

/-- Moving entry `j` into position `i` and storing `v` at `j` rearranges the
list obtained by storing `v` at `i`. -/
theorem set_set_perm : ∀ (xs : List α) (i j : Nat) (v d : α), i ≠ j → i < xs.length →
    j < xs.length → ((xs.set i (xs.getD j d)).set j v).Perm (xs.set i v)
  | [], _, _, _, _, _, h, _ => by simp at h
  | a :: t, 0, 0, _, _, h, _, _ => absurd rfl h
  | a :: t, 0, j + 1, v, d, _, _, hj => by
    have hj2 : j < t.length := by simpa using hj
    simp only [List.set_cons_zero, List.set_cons_succ, List.getD_cons_succ]
    have h1 := set_perm_cons_eraseIdx t j v hj2
    have h2 := perm_getD_cons_eraseIdx t j d hj2
    exact ((List.Perm.cons _ h1).trans (List.Perm.swap _ _ _)).trans (List.Perm.cons v h2.symm)
  | a :: t, i + 1, 0, v, d, _, hi, _ => by
    have hi2 : i < t.length := by simpa using hi
    simp only [List.set_cons_zero, List.set_cons_succ, List.getD_cons_zero]
    have h1 := set_perm_cons_eraseIdx t i a hi2
    have h2 := set_perm_cons_eraseIdx t i v hi2
    exact ((List.Perm.cons v h1).trans (List.Perm.swap _ _ _)).trans (List.Perm.cons a h2.symm)
  | a :: t, i + 1, j + 1, v, d, h, hi, hj => by
    simp only [List.set_cons_succ, List.getD_cons_succ]
    exact List.Perm.cons a (set_set_perm t i j v d (by omega) (by simpa using hi) (by simpa using hj))


theorem is_heap_iff_heapOn (key : α → Int) (comp : α → α → Bool)
    (hc : ∀ a b, comp a b = true ↔ key b < key a) (d : α) (xs : List α) :
    is_heap comp xs ↔ HeapOn key d xs := by
  constructor
  · intro h j hj0 hjl
    have hp : (j - 1) / 2 < xs.length := by omega
    have h1 := h j (xs[(j - 1) / 2]) (xs[j]) hj0 (List.getElem?_eq_getElem hp)
      (List.getElem?_eq_getElem hjl)
    have h2 : ¬ (key xs[j] < key xs[(j - 1) / 2]) := by
      intro h3; rw [← hc] at h3; rw [h1] at h3; exact Bool.noConfusion h3
    simp only [List.getD_eq_getElem?_getD, List.getElem?_eq_getElem hp,
      List.getElem?_eq_getElem hjl, Option.getD_some]
    omega
  · intro h j a b hj0 ha hb
    have hjl : j < xs.length := by
      rcases Nat.lt_or_ge j xs.length with h1 | h1
      · exact h1
      · rw [List.getElem?_eq_none h1] at hb; exact Option.noConfusion hb
    have h1 := h j hj0 hjl
    simp only [List.getD_eq_getElem?_getD, ha, hb, Option.getD_some] at h1
    cases hcab : comp a b
    · rfl
    · rw [hc] at hcab; omega

theorem heapOn_default (key : α → Int) (d d2 : α) (xs : List α) (h : HeapOn key d xs) :
    HeapOn key d2 xs := by
  intro j hj0 hjl
  have := h j hj0 hjl
  rwa [getD_default_irrel xs _ d d2 (by omega), getD_default_irrel xs j d d2 hjl] at this

/-- The root of a heap carries a least key. -/
theorem heapOn_root_le (key : α → Int) (d : α) (xs : List α) (h : HeapOn key d xs) :
    ∀ j, j < xs.length → key (xs.getD 0 d) ≤ key (xs.getD j d) := by
  intro j
  induction j using Nat.strong_induction_on with
  | _ j ih =>
    intro hjl
    rcases Nat.eq_zero_or_pos j with h0 | h0
    · subst h0; exact le_refl _
    · have h1 := ih ((j - 1) / 2) (by omega) (by omega)
      exact le_trans h1 (h j h0 hjl)

theorem heapOn_set_hole (key : α → Int) (d value : α) (xs : List α) (hole : Nat)
    (hlt : hole < xs.length) (inv : HoleInv key d value xs hole)
    (hp : hole = 0 ∨ key (xs.getD ((hole - 1) / 2) d) ≤ key value) :
    HeapOn key d (xs.set hole value) := by
  obtain ⟨ha, _, hc⟩ := inv
  intro j hj0 hjl
  rw [List.length_set] at hjl
  rw [getD_set _ _ _ _ _ hlt, getD_set _ _ _ _ _ hlt]
  by_cases h1 : j = hole
  · subst h1
    have h2 : (j - 1) / 2 ≠ j := by omega
    simp only [h2, if_false, if_true]
    rcases hp with hp | hp
    · omega
    · exact hp
  · by_cases h2 : (j - 1) / 2 = hole
    · simp only [h1, h2, if_true, if_false]; exact hc j hj0 hjl h2
    · simp only [h1, h2, if_false]; exact ha j hj0 hjl h1

theorem holeInv_up (key : α → Int) (d value : α) (xs : List α) (hole : Nat)
    (hlt : hole < xs.length) (h0 : 0 < hole) (inv : HoleInv key d value xs hole)
    (hv : key value < key (xs.getD ((hole - 1) / 2) d)) :
    HoleInv key d value (xs.set hole (xs.getD ((hole - 1) / 2) d)) ((hole - 1) / 2) := by
  obtain ⟨ha, hb, _⟩ := inv
  have hph : (hole - 1) / 2 ≠ hole := by omega
  refine ⟨?_, ?_, ?_⟩
  · intro j hj0 hjl hjp
    rw [List.length_set] at hjl
    rw [getD_set _ _ _ _ _ hlt, getD_set _ _ _ _ _ hlt]
    by_cases h1 : j = hole
    · subst h1
      simp only [hph, if_false, if_true]; exact le_refl _
    · by_cases h2 : (j - 1) / 2 = hole
      · simp only [h1, h2, if_true, if_false]; exact hb j hj0 hjl h2 h0
      · simp only [h1, h2, if_false]; exact ha j hj0 hjl h1
  · intro c hc0 hcl hcp hp0
    rw [List.length_set] at hcl
    rw [getD_set _ _ _ _ _ hlt, getD_set _ _ _ _ _ hlt]
    have h3 : ((hole - 1) / 2 - 1) / 2 ≠ hole := by omega
    have h4 := ha ((hole - 1) / 2) hp0 (by omega) hph
    by_cases h1 : c = hole
    · simp only [h1, h3, if_true, if_false]; exact h4
    · simp only [h1, h3, if_false]
      have h5 := ha c hc0 hcl h1
      rw [hcp] at h5
      exact le_trans h4 h5
  · intro c hc0 hcl hcp
    rw [List.length_set] at hcl
    rw [getD_set _ _ _ _ _ hlt]
    by_cases h1 : c = hole
    · simp only [h1, if_true]; exact le_of_lt hv
    · simp only [h1, if_false]
      have h5 := ha c hc0 hcl h1
      rw [hcp] at h5
      exact le_trans (le_of_lt hv) h5

theorem pushHeapLoop_length (comp : α → α → Bool) (value : α) (top : Nat) :
    ∀ (fuel : Nat) (xs : List α) (hole : Nat),
      (pushHeapLoop comp value top fuel xs hole).length = xs.length
  | 0, xs, hole => by simp [pushHeapLoop]
  | fuel + 1, xs, hole => by
    unfold pushHeapLoop
    simp only
    split
    · rw [pushHeapLoop_length comp value top fuel]; simp
    · simp

theorem pushHeapLoop_perm (comp : α → α → Bool) (value : α) (top : Nat) :
    ∀ (fuel : Nat) (xs : List α) (hole : Nat), hole < xs.length →
      (pushHeapLoop comp value top fuel xs hole).Perm (xs.set hole value)
  | 0, xs, hole, _ => by simp [pushHeapLoop]
  | fuel + 1, xs, hole, hlt => by
    unfold pushHeapLoop
    simp only
    split
    · rename_i hcond
      have hp : (hole - 1) / 2 < hole := by omega
      have ih := pushHeapLoop_perm comp value top fuel
        (xs.set hole (xs.getD ((hole - 1) / 2) value)) ((hole - 1) / 2)
        (by rw [List.length_set]; omega)
      exact ih.trans (set_set_perm xs hole ((hole - 1) / 2) value value (by omega) hlt (by omega))
    · exact List.Perm.refl _

theorem pushHeapLoop_heap (key : α → Int) (comp : α → α → Bool)
    (hc : ∀ a b, comp a b = true ↔ key b < key a) (value : α) :
    ∀ (fuel : Nat) (xs : List α) (hole : Nat), hole ≤ fuel → hole < xs.length →
      HoleInv key value value xs hole →
      HeapOn key value (pushHeapLoop comp value 0 fuel xs hole)
  | 0, xs, hole, hf, hlt, inv => by
    simp only [pushHeapLoop]
    exact heapOn_set_hole key value value xs hole hlt inv (Or.inl (by omega))
  | fuel + 1, xs, hole, hf, hlt, inv => by
    unfold pushHeapLoop
    simp only
    split
    · rename_i hcond
      have hv : key value < key (xs.getD ((hole - 1) / 2) value) := (hc _ _).1 hcond.2
      exact pushHeapLoop_heap key comp hc value fuel _ _ (by omega)
        (by rw [List.length_set]; omega)
        (holeInv_up key value value xs hole hlt hcond.1 inv hv)
    · rename_i hcond
      apply heapOn_set_hole key value value xs hole hlt inv
      rcases Nat.eq_zero_or_pos hole with h0 | h0
      · exact Or.inl h0
      · right
        have h1 : ¬ comp (xs.getD ((hole - 1) / 2) value) value = true := fun h => hcond ⟨h0, h⟩
        rw [hc] at h1
        omega


theorem getD_append_left (xs ys : List α) (j : Nat) (d : α) (h : j < xs.length) :
    (xs ++ ys).getD j d = xs.getD j d := by
  simp [List.getD_eq_getElem?_getD, List.getElem?_append_left h]

theorem heapOn_append_left (key : α → Int) (d : α) (xs ys : List α)
    (h : HeapOn key d (xs ++ ys)) : HeapOn key d xs := by
  intro j hj0 hjl
  have := h j hj0 (by rw [List.length_append]; omega)
  rwa [getD_append_left xs ys _ d (by omega), getD_append_left xs ys j d hjl] at this

theorem push_heap_perm (comp : α → α → Bool) (front : List α) (v : α) :
    (push_heap comp (front ++ [v])).Perm (front ++ [v]) := by
  unfold push_heap
  have hlast : (front ++ [v]).getLast? = some v := by simp
  rw [hlast]
  simp only [List.length_append, List.length_singleton, Nat.add_sub_cancel]
  have h := pushHeapLoop_perm comp v 0 front.length (front ++ [v]) front.length (by simp)
  have h2 : (front ++ [v]).set front.length v = front ++ [v] := by
    simp [List.set_append]
  rw [h2] at h
  exact h

theorem push_heap_heapOn (key : α → Int) (comp : α → α → Bool)
    (hc : ∀ a b, comp a b = true ↔ key b < key a) (front : List α) (v : α)
    (h : HeapOn key v front) : HeapOn key v (push_heap comp (front ++ [v])) := by
  unfold push_heap
  have hlast : (front ++ [v]).getLast? = some v := by simp
  rw [hlast]
  simp only [List.length_append, List.length_singleton, Nat.add_sub_cancel]
  apply pushHeapLoop_heap key comp hc v front.length (front ++ [v]) front.length (le_refl _)
    (by simp)
  refine ⟨?_, ?_, ?_⟩
  · intro j hj0 hjl hjn
    rw [List.length_append, List.length_singleton] at hjl
    have hj : j < front.length := by omega
    rw [getD_append_left front [v] _ v (by omega), getD_append_left front [v] j v hj]
    exact h j hj0 hj
  · intro c hc0 hcl hcp _
    rw [List.length_append, List.length_singleton] at hcl
    omega
  · intro c hc0 hcl hcp
    rw [List.length_append, List.length_singleton] at hcl
    omega

theorem adjustDown_spec (comp : α → α → Bool) (value : α) (len : Nat) :
    ∀ (fuel : Nat) (xs : List α) (hole : Nat), xs.length = len → hole < len →
      (adjustDown comp value len fuel xs hole).1.length = len ∧
      (adjustDown comp value len fuel xs hole).2 < len ∧
      (∀ key : α → Int, (∀ a b, comp a b = true ↔ key b < key a) →
        HeapOn key value xs → HeapOn key value (adjustDown comp value len fuel xs hole).1) ∧
      (len - hole ≤ fuel → ¬ (adjustDown comp value len fuel xs hole).2 < (len - 1) / 2) ∧
      (∀ v, ((adjustDown comp value len fuel xs hole).1.set
          (adjustDown comp value len fuel xs hole).2 v).Perm (xs.set hole v))
  | 0, xs, hole, hl, hh => by
    simp only [adjustDown]
    exact ⟨hl, hh, fun _ _ hp => hp, fun h => by omega, fun v => List.Perm.refl _⟩
  | fuel + 1, xs, hole, hl, hh => by
    unfold adjustDown
    simp only
    split
    · rename_i hcond
      have hr : 2 * (hole + 1) < len := by omega
      -- the preferred child and its properties
      obtain ⟨child, hchild, hcl, hcgt, hcpar, hcmin⟩ :
          ∃ child, (if comp (xs.getD (2 * (hole + 1)) value)
                (xs.getD (2 * (hole + 1) - 1) value) = true
              then 2 * (hole + 1) - 1 else 2 * (hole + 1)) = child ∧ child < len ∧
            hole < child ∧ (child - 1) / 2 = hole ∧
            ∀ key : α → Int, (∀ a b, comp a b = true ↔ key b < key a) →
              ∀ j, 0 < j → (j - 1) / 2 = hole →
                key (xs.getD child value) ≤ key (xs.getD j value) := by
        by_cases hcmp : comp (xs.getD (2 * (hole + 1)) value)
            (xs.getD (2 * (hole + 1) - 1) value) = true
        · refine ⟨2 * (hole + 1) - 1, if_pos hcmp, by omega, by omega, by omega, ?_⟩
          intro key hc j hj0 hjp
          have hlt := (hc _ _).1 hcmp
          have hj : j = 2 * (hole + 1) - 1 ∨ j = 2 * (hole + 1) := by omega
          rcases hj with hj | hj
          · rw [hj]
          · rw [hj]; exact le_of_lt hlt
        · refine ⟨2 * (hole + 1), if_neg hcmp, by omega, by omega, by omega, ?_⟩
          intro key hc j hj0 hjp
          rw [hc] at hcmp
          have hj : j = 2 * (hole + 1) - 1 ∨ j = 2 * (hole + 1) := by omega
          rcases hj with hj | hj
          · rw [hj]; omega
          · rw [hj]
      rw [hchild]
      have hhl : hole < xs.length := by omega
      have hne : child ≠ hole := by omega
      have hheap : ∀ key : α → Int, (∀ a b, comp a b = true ↔ key b < key a) →
          HeapOn key value xs →
          HeapOn key value (xs.set hole (xs.getD child value)) := by
        intro key hc hp j hj0 hjl
        rw [List.length_set] at hjl
        rw [getD_set _ _ _ _ _ hhl, getD_set _ _ _ _ _ hhl]
        by_cases h1 : j = hole
        · subst h1
          have h2 : (j - 1) / 2 ≠ j := by omega
          simp only [h2, if_false, if_true]
          have h3 := hp j hj0 hjl
          have h4 := hp child (by omega) (by omega)
          rw [hcpar] at h4
          exact le_trans h3 h4
        · by_cases h2 : (j - 1) / 2 = hole
          · simp only [h1, h2, if_true, if_false]; exact hcmin key hc j hj0 h2
          · simp only [h1, h2, if_false]; exact hp j hj0 hjl
      have ih := adjustDown_spec comp value len fuel
        (xs.set hole (xs.getD child value)) child (by rw [List.length_set]; exact hl) hcl
      obtain ⟨i1, i2, i3, i4, i5⟩ := ih
      refine ⟨i1, i2, fun key hc hp => i3 key hc (hheap key hc hp), fun h => i4 (by omega),
        fun v => (i5 v).trans ?_⟩
      exact set_set_perm xs hole child v value (Ne.symm hne) hhl (by omega)
    · rename_i hcond
      exact ⟨hl, hh, fun _ _ hp => hp, fun _ => hcond, fun v => List.Perm.refl _⟩

theorem adjust_heap_spec (comp : α → α → Bool) (value : α) (xs : List α) (len : Nat)
    (hl : xs.length = len) (hpos : 0 < len) :
    (adjust_heap comp xs 0 len value).Perm (xs.set 0 value) ∧
    (∀ key : α → Int, (∀ a b, comp a b = true ↔ key b < key a) →
      HeapOn key value xs → HeapOn key value (adjust_heap comp xs 0 len value)) := by
  unfold adjust_heap
  obtain ⟨i1, i2, i3, i4, i5⟩ := adjustDown_spec comp value len len xs 0 hl hpos
  have i4 := i4 (by omega)
  generalize adjustDown comp value len len xs 0 = r at i1 i2 i3 i4 i5
  obtain ⟨ys, hole⟩ := r
  simp only at i1 i2 i3 i4 i5 ⊢
  by_cases hcase : len % 2 = 0 ∧ 2 ≤ len ∧ hole = (len - 2) / 2
  · rw [if_pos hcase]
    simp only
    have hceq : 2 * (hole + 1) - 1 = len - 1 := by omega
    rw [hceq]
    have hlen2 : (ys.set hole (ys.getD (len - 1) value)).length = len := by
      rw [List.length_set]; exact i1
    constructor
    · refine (pushHeapLoop_perm comp value 0 (len - 1) _ (len - 1) (by omega)).trans ?_
      refine (set_set_perm ys hole (len - 1) value value (by omega) (by omega) (by omega)).trans ?_
      exact i5 value
    · intro key hc hp
      have hy := i3 key hc hp
      apply pushHeapLoop_heap key comp hc value (len - 1) _ (len - 1) (le_refl _) (by omega)
      refine ⟨?_, ?_, ?_⟩
      · intro j hj0 hjl hjn
        rw [hlen2] at hjl
        rw [getD_set _ _ _ _ _ (by omega), getD_set _ _ _ _ _ (by omega)]
        by_cases h1 : j = hole
        · subst h1
          have h2 : (j - 1) / 2 ≠ j := by omega
          simp only [h2, if_false, if_true]
          have h3 := hy j hj0 (by omega)
          have h4 := hy (len - 1) (by omega) (by omega)
          have h5 : (len - 1 - 1) / 2 = j := by omega
          rw [h5] at h4
          exact le_trans h3 h4
        · have h2 : (j - 1) / 2 ≠ hole := by omega
          simp only [h1, h2, if_false]
          exact hy j hj0 (by omega)
      · intro c hc0 hcl hcp _
        rw [hlen2] at hcl
        omega
      · intro c hc0 hcl hcp
        rw [hlen2] at hcl
        omega
  · rw [if_neg hcase]
    simp only
    constructor
    · exact (pushHeapLoop_perm comp value 0 hole ys hole (by omega)).trans (i5 value)
    · intro key hc hp
      have hy := i3 key hc hp
      apply pushHeapLoop_heap key comp hc value hole ys hole (le_refl _) (by omega)
      refine ⟨?_, ?_, ?_⟩
      · intro j hj0 hjl _
        exact hy j hj0 hjl
      · intro c hc0 hcl hcp _
        rw [i1] at hcl
        omega
      · intro c hc0 hcl hcp
        rw [i1] at hcl
        omega

/-- The call `pop_heap` moves the root to the back and leaves a rearrangement of the other
entries in front of it, which is a heap again when the vector was one. -/
theorem pop_heap_spec (comp : α → α → Bool) (root : α) (rest : List α) :
    ∃ ys, pop_heap comp (root :: rest) = ys ++ [root] ∧ ys.Perm rest ∧
      (∀ (key : α → Int) (d : α), (∀ a b, comp a b = true ↔ key b < key a) →
        HeapOn key d (root :: rest) → HeapOn key d ys) := by
  unfold pop_heap
  rcases hlast : rest.getLast? with _ | value
  · have hnil : rest = [] := by simpa using hlast
    subst hnil
    exact ⟨[], rfl, List.Perm.refl _, fun _ _ _ _ j _ hjl => by simp at hjl⟩
  · simp only
    have hrest : rest = rest.dropLast ++ [value] := by
      have hne : rest ≠ [] := by
        intro h; rw [h] at hlast; simp at hlast
      have h1 := List.dropLast_append_getLast hne
      have h2 : rest.getLast hne = value := by
        rw [List.getLast?_eq_getLast _ hne] at hlast
        exact Option.some.inj hlast
      rw [h2] at h1
      exact h1.symm
    have hlen : (root :: rest.dropLast).length = rest.length := by
      simp only [List.length_cons, List.length_dropLast]
      have : 0 < rest.length := by rw [hrest]; simp
      omega
    obtain ⟨hperm, hheap⟩ := adjust_heap_spec comp value (root :: rest.dropLast)
      rest.length hlen (by rw [hrest]; simp)
    refine ⟨adjust_heap comp (root :: rest.dropLast) 0 rest.length value, by rw [hlast], ?_, ?_⟩
    · refine hperm.trans ?_
      simp only [List.set_cons_zero]
      have h3 : (value :: rest.dropLast).Perm (rest.dropLast ++ [value]) :=
        (List.perm_append_singleton value rest.dropLast).symm
      rw [← hrest] at h3
      exact h3
    · intro key d hc hp
      apply heapOn_default key value d
      apply hheap key hc
      apply heapOn_default key d value
      apply heapOn_append_left key d (root :: rest.dropLast) [value]
      have h4 : root :: rest.dropLast ++ [value] = root :: rest := by
        rw [List.cons_append, ← hrest]
      rw [h4]
      exact hp

/-! ### The primitives only look at the comparator on the entries they hold -/

theorem forall_getD {P : α → Prop} {xs : List α} (hxs : ∀ x ∈ xs, P x) {d : α} (hd : P d)
    (i : Nat) : P (xs.getD i d) := by
  rcases Nat.lt_or_ge i xs.length with h | h
  · rw [List.getD_eq_getElem?_getD, List.getElem?_eq_getElem h, Option.getD_some]
    exact hxs _ (List.getElem_mem h)
  · rw [List.getD_eq_getElem?_getD, List.getElem?_eq_none h, Option.getD_none]
    exact hd

theorem forall_set {P : α → Prop} {xs : List α} (hxs : ∀ x ∈ xs, P x) {a : α} (ha : P a)
    (i : Nat) : ∀ x ∈ xs.set i a, P x := by
  intro x hx
  rcases List.mem_or_eq_of_mem_set hx with h | h
  · exact hxs x h
  · rw [h]; exact ha

theorem pushHeapLoop_congr (comp comp2 : α → α → Bool) (P : α → Prop)
    (hagree : ∀ a b, P a → P b → comp a b = comp2 a b) (value : α) (hv : P value)
    (top : Nat) :
    ∀ (fuel : Nat) (xs : List α) (hole : Nat), (∀ x ∈ xs, P x) →
      pushHeapLoop comp value top fuel xs hole = pushHeapLoop comp2 value top fuel xs hole
  | 0, _, _, _ => rfl
  | fuel + 1, xs, hole, hxs => by
    have hp : P (xs.getD ((hole - 1) / 2) value) := forall_getD hxs hv _
    unfold pushHeapLoop
    simp only
    rw [hagree _ _ hp hv]
    rw [pushHeapLoop_congr comp comp2 P hagree value hv top fuel _ _ (forall_set hxs hp hole)]

theorem push_heap_congr (comp comp2 : α → α → Bool) (P : α → Prop)
    (hagree : ∀ a b, P a → P b → comp a b = comp2 a b) (xs : List α)
    (hxs : ∀ x ∈ xs, P x) : push_heap comp xs = push_heap comp2 xs := by
  unfold push_heap
  rcases hlast : xs.getLast? with _ | value
  · rfl
  · simp only
    exact pushHeapLoop_congr comp comp2 P hagree value
      (hxs value (List.mem_of_getLast?_eq_some hlast)) 0 _ xs _ hxs

theorem adjustDown_congr (comp comp2 : α → α → Bool) (P : α → Prop)
    (hagree : ∀ a b, P a → P b → comp a b = comp2 a b) (value : α) (hv : P value)
    (len : Nat) :
    ∀ (fuel : Nat) (xs : List α) (hole : Nat), (∀ x ∈ xs, P x) →
      adjustDown comp value len fuel xs hole = adjustDown comp2 value len fuel xs hole ∧
      ∀ x ∈ (adjustDown comp value len fuel xs hole).1, P x
  | 0, xs, _, hxs => ⟨rfl, hxs⟩
  | fuel + 1, xs, hole, hxs => by
    unfold adjustDown
    simp only
    rw [hagree _ _ (forall_getD hxs hv (2 * (hole + 1)))
      (forall_getD hxs hv (2 * (hole + 1) - 1))]
    split
    · exact adjustDown_congr comp comp2 P hagree value hv len fuel _ _
        (forall_set hxs (forall_getD hxs hv _) hole)
    · exact ⟨rfl, hxs⟩

theorem adjust_heap_congr (comp comp2 : α → α → Bool) (P : α → Prop)
    (hagree : ∀ a b, P a → P b → comp a b = comp2 a b) (value : α) (hv : P value)
    (xs : List α) (hxs : ∀ x ∈ xs, P x) (holeIndex len : Nat) :
    adjust_heap comp xs holeIndex len value = adjust_heap comp2 xs holeIndex len value := by
  unfold adjust_heap
  obtain ⟨h1, h2⟩ := adjustDown_congr comp comp2 P hagree value hv len len xs holeIndex hxs
  rw [← h1]
  simp only
  split
  · exact pushHeapLoop_congr comp comp2 P hagree value hv holeIndex _ _ _
      (forall_set h2 (forall_getD h2 hv _) _)
  · exact pushHeapLoop_congr comp comp2 P hagree value hv holeIndex _ _ _ h2

theorem pop_heap_congr (comp comp2 : α → α → Bool) (P : α → Prop)
    (hagree : ∀ a b, P a → P b → comp a b = comp2 a b) (xs : List α)
    (hxs : ∀ x ∈ xs, P x) : pop_heap comp xs = pop_heap comp2 xs := by
  cases xs with
  | nil => rfl
  | cons root rest =>
    simp only [pop_heap]
    rcases hlast : rest.getLast? with _ | value
    · rfl
    · simp only
      have hv : P value :=
        hxs value (List.mem_cons_of_mem _ (List.mem_of_getLast?_eq_some hlast))
      have hfront : ∀ x ∈ root :: rest.dropLast, P x := by
        intro x hx
        rcases List.mem_cons.1 hx with e | e
        · rw [e]; exact hxs root (List.mem_cons_self _ _)
        · exact hxs x (List.mem_cons_of_mem _ (List.dropLast_subset rest e))
      rw [adjust_heap_congr comp comp2 P hagree value hv _ hfront]

theorem is_heap_congr (comp comp2 : α → α → Bool) (P : α → Prop)
    (hagree : ∀ a b, P a → P b → comp a b = comp2 a b) (xs : List α)
    (hxs : ∀ x ∈ xs, P x) : is_heap comp xs ↔ is_heap comp2 xs := by
  constructor
  · intro h j a b hj ha hb
    rw [← hagree a b (hxs a (List.getElem?_mem ha)) (hxs b (List.getElem?_mem hb))]
    exact h j a b hj ha hb
  · intro h j a b hj ha hb
    rw [hagree a b (hxs a (List.getElem?_mem ha)) (hxs b (List.getElem?_mem hb))]
    exact h j a b hj ha hb

end std

/-! ## The Index as an association list -/

namespace T_HASH_DICT

theorem find_erase_self (key : Int) (m : T_HASH_DICT) : find key (erase key m) = none := by
  induction m with
  | nil => rfl
  | cons kv m ih =>
    obtain ⟨k, p⟩ := kv
    by_cases h : k = key
    · simpa [erase, h] using ih
    · simpa [erase, find, h] using ih

theorem find_erase_ne (key : Int) {k : Int} (m : T_HASH_DICT) (h : k ≠ key) :
    find k (erase key m) = find k m := by
  induction m with
  | nil => rfl
  | cons kv m ih =>
    obtain ⟨k2, p⟩ := kv
    by_cases h2 : k2 = key
    · have h3 : k2 ≠ k := fun e => h (e ▸ h2)
      simpa [erase, find, h2, h3, Ne.symm h] using ih
    · by_cases h3 : k2 = k
      · subst h3
        simp [erase, find, h2, List.filter_cons]
      · simpa [erase, find, h2, h3] using ih

theorem find_erase_some {key k : Int} {p : Nat} {m : T_HASH_DICT}
    (h : find k (erase key m) = some p) : k ≠ key ∧ find k m = some p := by
  by_cases hk : k = key
  · subst hk; rw [find_erase_self] at h; exact Option.noConfusion h
  · exact ⟨hk, by rwa [find_erase_ne key m hk] at h⟩

theorem find_assign_self (key : Int) (p : Nat) (m : T_HASH_DICT) :
    find key (assign key p m) = some p := by
  simp [assign, find]

theorem find_assign_ne (key : Int) (p : Nat) {k : Int} (m : T_HASH_DICT) (h : k ≠ key) :
    find k (assign key p m) = find k m := by
  simp [assign, find, Ne.symm h, find_erase_ne key m h]

theorem mem_of_find {k : Int} {p : Nat} {m : T_HASH_DICT} (h : find k m = some p) :
    (k, p) ∈ m := by
  induction m with
  | nil => exact Option.noConfusion h
  | cons kv m ih =>
    obtain ⟨k2, p2⟩ := kv
    by_cases h2 : k2 = k
    · simp only [find, h2, if_true, Option.some.injEq] at h
      simp [h2, h]
    · simp only [find, h2, if_false] at h
      exact List.mem_cons_of_mem _ (ih h)

theorem find_isSome_iff (k : Int) (m : T_HASH_DICT) : (find k m).isSome = true ↔ k ∈ keys m := by
  induction m with
  | nil => simp [find, keys]
  | cons kv m ih =>
    obtain ⟨k2, p2⟩ := kv
    by_cases h2 : k2 = k
    · simp [find, keys, h2]
    · simp only [find, h2, if_false, keys, List.map_cons, List.mem_cons]
      rw [ih]
      constructor
      · intro h; exact Or.inr h
      · intro h
        rcases h with h | h
        · exact absurd h.symm h2
        · exact h

theorem find_of_mem {k : Int} {p : Nat} {m : T_HASH_DICT} (hn : (keys m).Nodup)
    (h : (k, p) ∈ m) : find k m = some p := by
  induction m with
  | nil => simp at h
  | cons kv m ih =>
    obtain ⟨k2, p2⟩ := kv
    simp only [keys, List.map_cons, List.nodup_cons] at hn
    rcases List.mem_cons.1 h with h1 | h1
    · simp only [Prod.mk.injEq] at h1
      simp [find, h1.1, h1.2]
    · have hk : k ∈ keys m := List.mem_map.2 ⟨(k, p), h1, rfl⟩
      have hne : k2 ≠ k := fun e => hn.1 (e ▸ hk)
      simp only [find, hne, if_false]
      exact ih hn.2 h1

theorem keys_erase (key : Int) (m : T_HASH_DICT) :
    keys (erase key m) = (keys m).filter (fun k => decide (k ≠ key)) := by
  induction m with
  | nil => rfl
  | cons kv m ih =>
    obtain ⟨k2, p2⟩ := kv
    by_cases h2 : k2 = key
    · simpa [erase, keys, h2] using ih
    · simpa [erase, keys, h2] using ih

theorem keys_erase_nodup (key : Int) {m : T_HASH_DICT} (hn : (keys m).Nodup) :
    (keys (erase key m)).Nodup := by
  rw [keys_erase]; exact hn.filter _

theorem keys_assign_nodup (key : Int) (p : Nat) {m : T_HASH_DICT} (hn : (keys m).Nodup) :
    (keys (assign key p m)).Nodup := by
  simp only [assign, keys, List.map_cons, List.nodup_cons]
  refine ⟨?_, keys_erase_nodup key hn⟩
  have := keys_erase key m
  simp only [keys] at this
  rw [this]
  simp

theorem exists_find_of_not_isEmpty {m : T_HASH_DICT} (h : m.isEmpty = false) :
    ∃ k p, find k m = some p := by
  cases m with
  | nil => simp at h
  | cons kv m => exact ⟨kv.1, kv.2, by simp [find]⟩

theorem length_erase_of_find {k : Int} {p : Nat} {m : T_HASH_DICT} (hn : (keys m).Nodup)
    (h : find k m = some p) : (erase k m).length + 1 = m.length := by
  induction m with
  | nil => exact Option.noConfusion h
  | cons kv m ih =>
    obtain ⟨k2, p2⟩ := kv
    simp only [keys, List.map_cons, List.nodup_cons] at hn
    by_cases h2 : k2 = k
    · subst h2
      have hnot : erase k2 m = m := by
        simp only [erase]
        apply List.filter_eq_self.2
        intro kv hkv
        have : kv.1 ∈ keys m := List.mem_map.2 ⟨kv, hkv, rfl⟩
        have hne : kv.1 ≠ k2 := fun e => hn.1 (e ▸ this)
        simpa using hne
      have : erase k2 ((k2, p2) :: m) = erase k2 m := by simp [erase]
      rw [this, hnot]; simp
    · simp only [find, h2, if_false] at h
      have := ih hn.2 h
      have h3 : erase k ((k2, p2) :: m) = (k2, p2) :: erase k m := by simp [erase, h2]
      rw [h3]; simp only [List.length_cons]; omega

end T_HASH_DICT

/-! ## Facts about the queue operations -/

namespace PriorityQueue

theorem compareNum_iff (a b : Slot) : compareNum a b = true ↔ scoreOf b < scoreOf a := by
  simp [compareNum]

/-- On slots whose scores are not NaN, `compare` compares the numbers. -/
theorem compare_eq_compareNum (a b : Slot) (ha : a.elem.score ≠ Score.nan)
    (hb : b.elem.score ≠ Score.nan) : PriorityQueueElement.compare a b = compareNum a b := by
  unfold PriorityQueueElement.compare compareNum scoreOf
  cases hsa : a.elem.score with
  | nan => exact absurd hsa ha
  | num x =>
    cases hsb : b.elem.score with
    | nan => exact absurd hsb hb
    | num y => simp [Score.gt]

theorem score_le_of_scoreOf_le {a b : Slot} (ha : a.elem.score ≠ Score.nan)
    (hb : b.elem.score ≠ Score.nan) (h : scoreOf a ≤ scoreOf b) :
    a.elem.score.le b.elem.score = true := by
  unfold scoreOf at h
  cases hsa : a.elem.score with
  | nan => exact absurd hsa ha
  | num x =>
    cases hsb : b.elem.score with
    | nan => exact absurd hsb hb
    | num y =>
      rw [hsa, hsb] at h
      simpa [Score.le] using h

theorem le_foldr_max : ∀ (l : List Nat) (x : Nat), x ∈ l → x ≤ l.foldr max 0
  | [], _, h => by simp at h
  | a :: l, x, h => by
    rcases List.mem_cons.1 h with h1 | h1
    · subst h1; simp
    · have := le_foldr_max l x h1
      simp only [List.foldr_cons]
      exact le_trans this (le_max_right _ _)

theorem alloc_fresh (q : PriorityQueue) : ∀ s ∈ q.m_elements, s.ptr < q.alloc := by
  intro s hs
  have := le_foldr_max (q.m_elements.map Slot.ptr) s.ptr (List.mem_map.2 ⟨s, hs, rfl⟩)
  unfold alloc
  omega

theorem is_heap_iff (d : Slot) (xs : List Slot) (hn : NoNaN xs) :
    std.is_heap PriorityQueueElement.compare xs ↔ std.HeapOn scoreOf d xs :=
  (std.is_heap_congr PriorityQueueElement.compare compareNum
    (fun s => s.elem.score ≠ Score.nan) compare_eq_compareNum xs hn).trans
    (std.is_heap_iff_heapOn scoreOf compareNum compareNum_iff d xs)

theorem add_map (q : PriorityQueue) (obj : PyObj) (score : Score) :
    (q.add obj score).m_map = T_HASH_DICT.assign (PyObject_Hash obj) q.alloc q.m_map := rfl

theorem add_elements (q : PriorityQueue) (obj : PyObj) (score : Score) :
    (q.add obj score).m_elements =
      std.push_heap PriorityQueueElement.compare
        (q.m_elements ++ [⟨q.alloc, PriorityQueueElement.create score obj (PyObject_Hash obj)⟩]) :=
  rfl

theorem add_elements_perm (q : PriorityQueue) (obj : PyObj) (score : Score) :
    (q.add obj score).m_elements.Perm
      (⟨q.alloc, PriorityQueueElement.create score obj (PyObject_Hash obj)⟩ :: q.m_elements) := by
  rw [add_elements]
  exact (std.push_heap_perm _ _ _).trans (List.perm_append_singleton _ _)

theorem markRemoved_ptrs (p : Nat) (xs : List Slot) :
    (markRemoved p xs).map Slot.ptr = xs.map Slot.ptr := by
  simp only [markRemoved, List.map_map]
  apply List.map_congr_left
  intro s _
  simp only [Function.comp]
  split <;> rfl

theorem markRemoved_length (p : Nat) (xs : List Slot) :
    (markRemoved p xs).length = xs.length := by
  simp [markRemoved]

theorem mem_markRemoved_of_ne {p : Nat} {xs : List Slot} {s : Slot} (hs : s ∈ xs)
    (hne : s.ptr ≠ p) : s ∈ markRemoved p xs := by
  simp only [markRemoved, List.mem_map]
  exact ⟨s, hs, by simp [hne]⟩

theorem mem_markRemoved {p : Nat} {xs : List Slot} {t : Slot} (ht : t ∈ markRemoved p xs) :
    ∃ s ∈ xs, t.ptr = s.ptr ∧ t.elem.score = s.elem.score ∧ t.elem.obj = s.elem.obj ∧
      t.elem.hash = s.elem.hash ∧ (s.ptr = p → t.elem.removed = true) ∧ (s.ptr ≠ p → t = s) := by
  simp only [markRemoved, List.mem_map] at ht
  obtain ⟨s, hs, hts⟩ := ht
  refine ⟨s, hs, ?_⟩
  by_cases h : s.ptr = p
  · simp only [h, if_true] at hts
    subst hts
    simp [h]
  · simp only [h, if_false] at hts
    subst hts
    simp [h]

theorem getD_map_of_lt {β γ : Type} (f : β → γ) (xs : List β) (j : Nat) (d : β) (e : γ)
    (h : j < xs.length) : (xs.map f).getD j e = f (xs.getD j d) := by
  simp [List.getD_eq_getElem?_getD, List.getElem?_eq_getElem h]

theorem markRemoved_heap (p : Nat) (xs : List Slot)
    (h : std.is_heap PriorityQueueElement.compare xs) :
    std.is_heap PriorityQueueElement.compare (markRemoved p xs) := by
  have hs : ∀ a b : Slot,
      PriorityQueueElement.compare
        (if a.ptr = p then { a with elem := { a.elem with removed := true } } else a)
        (if b.ptr = p then { b with elem := { b.elem with removed := true } } else b) =
      PriorityQueueElement.compare a b := by
    intro a b
    split <;> split <;> rfl
  intro j a b hj ha hb
  unfold markRemoved at ha hb
  rw [List.getElem?_map] at ha hb
  rcases h1 : xs[(j - 1) / 2]? with _ | a0
  · rw [h1] at ha; cases ha
  · rcases h2 : xs[j]? with _ | b0
    · rw [h2] at hb; cases hb
    · rw [h1] at ha; rw [h2] at hb
      simp only [Option.map_some', Option.some.injEq] at ha hb
      rw [← ha, ← hb, hs]
      exact h j a0 b0 hj h1 h2

theorem markRemoved_nonan (p : Nat) (xs : List Slot) (h : NoNaN xs) :
    NoNaN (markRemoved p xs) := by
  intro t ht
  obtain ⟨s, hs, _, h2, _⟩ := mem_markRemoved ht
  rw [h2]; exact h s hs

theorem filter_ptr_eq_singleton {xs : List Slot} (hn : (xs.map Slot.ptr).Nodup) {s : Slot}
    (hs : s ∈ xs) : xs.filter (fun t => decide (t.ptr = s.ptr)) = [s] := by
  induction xs with
  | nil => simp at hs
  | cons a xs ih =>
    simp only [List.map_cons, List.nodup_cons] at hn
    rcases List.mem_cons.1 hs with h1 | h1
    · subst h1
      have : xs.filter (fun t => decide (t.ptr = s.ptr)) = [] := by
        apply List.filter_eq_nil_iff.2
        intro t ht
        have : t.ptr ∈ xs.map Slot.ptr := List.mem_map.2 ⟨t, ht, rfl⟩
        have hne : t.ptr ≠ s.ptr := fun e => hn.1 (e ▸ this)
        simpa using hne
      simp [List.filter_cons, this]
    · have : s.ptr ∈ xs.map Slot.ptr := List.mem_map.2 ⟨s, h1, rfl⟩
      have hne : a.ptr ≠ s.ptr := fun e => hn.1 (e ▸ this)
      simp only [List.filter_cons, hne, decide_False, Bool.false_eq_true, if_false]
      exact ih hn.2 h1

theorem eq_of_ptr_eq {xs : List Slot} (hn : (xs.map Slot.ptr).Nodup) {s t : Slot}
    (hs : s ∈ xs) (ht : t ∈ xs) (h : s.ptr = t.ptr) : s = t := by
  have h1 := filter_ptr_eq_singleton hn ht
  have h2 : s ∈ xs.filter (fun u => decide (u.ptr = t.ptr)) := by
    simp [List.mem_filter, hs, h]
  rw [h1] at h2
  simpa using h2

theorem consistent_empty : Consistent PriorityQueue.empty where
  keys := by simp [PriorityQueue.empty, T_HASH_DICT.keys]
  ptrs := by simp [PriorityQueue.empty]
  hash := by simp [PriorityQueue.empty]
  live := by
    intro key p h
    simp [PriorityQueue.empty, T_HASH_DICT.find] at h

theorem consistent_add {q : PriorityQueue} (hq : Consistent q) (obj : PyObj) (score : Score) :
    Consistent (q.add obj score) := by
  have hperm := add_elements_perm q obj score
  refine ⟨?_, ?_, ?_, ?_⟩
  · rw [add_map]; exact T_HASH_DICT.keys_assign_nodup _ _ hq.keys
  · rw [(hperm.map Slot.ptr).nodup_iff]
    simp only [List.map_cons, List.nodup_cons]
    refine ⟨?_, hq.ptrs⟩
    intro hmem
    obtain ⟨s, hs, hsp⟩ := List.mem_map.1 hmem
    have := alloc_fresh q s hs
    omega
  · intro s hs
    rcases List.mem_cons.1 (hperm.mem_iff.1 hs) with h1 | h1
    · subst h1; rfl
    · exact hq.hash s h1
  · intro key p h
    rw [add_map] at h
    by_cases hk : key = PyObject_Hash obj
    · subst hk
      rw [T_HASH_DICT.find_assign_self] at h
      have hp : q.alloc = p := Option.some.inj h
      refine ⟨⟨q.alloc, PriorityQueueElement.create score obj (PyObject_Hash obj)⟩,
        hperm.mem_iff.2 (List.mem_cons_self _ _), hp, rfl, rfl⟩
    · rw [T_HASH_DICT.find_assign_ne _ _ _ hk] at h
      obtain ⟨s, hs, h1, h2, h3⟩ := hq.live key p h
      exact ⟨s, hperm.mem_iff.2 (List.mem_cons_of_mem _ hs), h1, h2, h3⟩


theorem remove_cases (q : PriorityQueue) (obj : PyObj) :
    (q.m_map.find (PyObject_Hash obj) = none ∧
      q.remove obj = .ok ⟨(), ["Not found!"], q⟩) ∨
    (∃ p, q.m_map.find (PyObject_Hash obj) = some p ∧ (∃ s ∈ q.m_elements, s.ptr = p) ∧
      q.remove obj = .ok ⟨(), [],
        ⟨T_HASH_DICT.erase (PyObject_Hash obj) q.m_map, markRemoved p q.m_elements⟩⟩) ∨
    (∃ p, q.m_map.find (PyObject_Hash obj) = some p ∧ (∀ s ∈ q.m_elements, s.ptr ≠ p) ∧
      q.remove obj = .error Fault.dangling) := by
  unfold remove
  simp only
  rcases hfind : T_HASH_DICT.find (PyObject_Hash obj) q.m_map with _ | p
  · left; exact ⟨rfl, rfl⟩
  · right
    by_cases hany : q.m_elements.any (fun s => decide (s.ptr = p)) = true
    · left
      refine ⟨p, rfl, ?_, ?_⟩
      · simpa using hany
      · simp only [hany, if_true]
    · right
      refine ⟨p, rfl, ?_, ?_⟩
      · simpa using hany
      · simp only [hany]; rfl

theorem remove_ok_of_consistent {q : PriorityQueue} (hq : Consistent q) (obj : PyObj) :
    ∃ r, q.remove obj = .ok r := by
  rcases remove_cases q obj with h | h | h
  · exact ⟨_, h.2⟩
  · obtain ⟨p, _, _, h3⟩ := h
    exact ⟨_, h3⟩
  · obtain ⟨p, h1, h2, _⟩ := h
    obtain ⟨s, hs, hsp, _⟩ := hq.live _ _ h1
    exact absurd hsp (h2 s hs)

theorem consistent_remove {q : PriorityQueue} (hq : Consistent q) {obj : PyObj}
    {r : RemoveOutcome} (h : q.remove obj = .ok r) : Consistent r.queue := by
  rcases remove_cases q obj with hc | hc | hc
  · rw [hc.2] at h
    cases h
    exact hq
  · obtain ⟨p, hfind, _, h3⟩ := hc
    rw [h3] at h
    cases h
    refine ⟨T_HASH_DICT.keys_erase_nodup _ hq.keys, ?_, ?_, ?_⟩
    · simp only [markRemoved_ptrs]; exact hq.ptrs
    · intro t ht
      obtain ⟨s, hs, _, _, h3, h4, _⟩ := mem_markRemoved ht
      rw [h3, h4]; exact hq.hash s hs
    · intro key p2 hf
      obtain ⟨hne, hf2⟩ := T_HASH_DICT.find_erase_some hf
      obtain ⟨s, hs, h1, h2, h3⟩ := hq.live key p2 hf2
      obtain ⟨s0, hs0, g1, g2, _⟩ := hq.live _ _ hfind
      have hsp : s.ptr ≠ p := by
        intro e
        have : s = s0 := eq_of_ptr_eq hq.ptrs hs hs0 (by rw [e, g1])
        rw [this, g2] at h2
        exact hne h2.symm
      exact ⟨s, mem_markRemoved_of_ne hs hsp, h1, h2, h3⟩
  · obtain ⟨p, _, _, h3⟩ := hc
    rw [h3] at h
    cases h

theorem popLoop_nil (n : Nat) (q : PriorityQueue) (hq : q.m_elements = []) :
    popLoop n q = .error Fault.emptyVector := by
  cases n with
  | zero => rfl
  | succ n => simp [popLoop, hq, std.pop_heap]

theorem popLoop_succ_live (n : Nat) (q : PriorityQueue) (root : Slot) (ys : List Slot)
    (hys : std.pop_heap PriorityQueueElement.compare q.m_elements = ys ++ [root])
    (hlive : root.elem.removed = false) :
    popLoop (n + 1) q =
      match q.m_map.find root.elem.hash with
      | none => .error Fault.eraseEnd
      | some _ => .ok (root.elem.obj,
          { m_map := T_HASH_DICT.erase root.elem.hash q.m_map, m_elements := ys }) := by
  simp [popLoop, hys, hlive]

theorem popLoop_succ_dead (n : Nat) (q : PriorityQueue) (root : Slot) (ys : List Slot)
    (hys : std.pop_heap PriorityQueueElement.compare q.m_elements = ys ++ [root])
    (hdead : root.elem.removed = true) :
    popLoop (n + 1) q = popLoop n { q with m_elements := ys } := by
  simp [popLoop, hys, hdead]

theorem heapOn_root_le_mem (d root : Slot) (rest : List Slot)
    (h : std.HeapOn scoreOf d (root :: rest)) : ∀ t ∈ rest, scoreOf root ≤ scoreOf t := by
  intro t ht
  obtain ⟨i, hi, hti⟩ := List.mem_iff_getElem.1 ht
  have := std.heapOn_root_le scoreOf d (root :: rest) h (i + 1) (by simp; omega)
  simp only [List.getD_cons_zero, List.getD_cons_succ] at this
  rw [List.getD_eq_getElem?_getD, List.getElem?_eq_getElem hi, Option.getD_some, hti] at this
  exact this

/-- The call `pop_heap` on the store: the root goes to the back, the other slots are
rearranged in front of it; without NaN scores, a heap stays a heap and its root
carries a least score. -/
theorem pop_heap_slots (root : Slot) (rest : List Slot) :
    ∃ ys, std.pop_heap PriorityQueueElement.compare (root :: rest) = ys ++ [root] ∧
      ys.Perm rest ∧
      (NoNaN (root :: rest) → std.is_heap PriorityQueueElement.compare (root :: rest) →
        std.is_heap PriorityQueueElement.compare ys ∧
        ∀ t ∈ rest, scoreOf root ≤ scoreOf t) := by
  obtain ⟨ys, hys, hperm, _⟩ := std.pop_heap_spec PriorityQueueElement.compare root rest
  refine ⟨ys, hys, hperm, ?_⟩
  intro hn hh
  obtain ⟨ys2, hys2, _, hheap2⟩ := std.pop_heap_spec compareNum root rest
  have hcong := std.pop_heap_congr PriorityQueueElement.compare compareNum
    (fun s => s.elem.score ≠ Score.nan) compare_eq_compareNum (root :: rest) hn
  rw [hys, hys2] at hcong
  have heq : ys = ys2 := List.append_cancel_right hcong
  subst heq
  have hh2 := (is_heap_iff root _ hn).1 hh
  have hnys : NoNaN ys := fun t ht =>
    hn t (List.mem_cons_of_mem _ (hperm.mem_iff.1 ht))
  exact ⟨(is_heap_iff root ys hnys).2 (hheap2 scoreOf root compareNum_iff hh2),
    heapOn_root_le_mem root root rest hh2⟩

/-- What a successful run of the loop of `pop` did: it took out soft-deleted
slots (`dead`) and then one live slot `s`, whose Index entry it erased. -/
theorem popLoop_spec : ∀ (n : Nat) (q : PriorityQueue) (obj : PyObj) (q2 : PriorityQueue),
    popLoop n q = .ok (obj, q2) →
    ∃ s dead, s.elem.removed = false ∧ obj = s.elem.obj ∧
      (∃ p, q.m_map.find s.elem.hash = some p) ∧
      q2.m_map = T_HASH_DICT.erase s.elem.hash q.m_map ∧
      (∀ t ∈ dead, t.elem.removed = true) ∧
      q.m_elements.Perm (s :: (dead ++ q2.m_elements)) ∧
      (NoNaN q.m_elements → std.is_heap PriorityQueueElement.compare q.m_elements →
        std.is_heap PriorityQueueElement.compare q2.m_elements ∧
        (∀ t ∈ dead, scoreOf t ≤ scoreOf s) ∧
        ∀ t ∈ q2.m_elements, scoreOf s ≤ scoreOf t)
  | 0, q, obj, q2, h => by simp [popLoop] at h
  | n + 1, q, obj, q2, h => by
    rcases hels : q.m_elements with _ | ⟨root, rest⟩
    · rw [popLoop_nil _ _ hels] at h; cases h
    · obtain ⟨ys, hys, hperm, hheap⟩ := pop_heap_slots root rest
      rw [← hels] at hys
      rcases hrem : root.elem.removed with _ | _
      · rw [popLoop_succ_live n q root ys hys hrem] at h
        rcases hfind : T_HASH_DICT.find root.elem.hash q.m_map with _ | p
        · rw [hfind] at h; cases h
        · rw [hfind] at h
          simp only [Except.ok.injEq, Prod.mk.injEq] at h
          obtain ⟨h1, h2⟩ := h
          subst h2
          refine ⟨root, [], hrem, h1.symm, ⟨p, hfind⟩, rfl, by simp, ?_, ?_⟩
          · simpa using hperm.symm
          · intro hn hh
            obtain ⟨k1, k2⟩ := hheap hn hh
            refine ⟨k1, by simp, ?_⟩
            intro t ht
            exact k2 t (hperm.mem_iff.1 ht)
      · rw [popLoop_succ_dead n q root ys hys hrem] at h
        obtain ⟨s, dead, g1, g2, g3, g4, g5, g6, g7⟩ := popLoop_spec n _ obj q2 h
        simp only at g3 g4 g6 g7
        refine ⟨s, root :: dead, g1, g2, g3, g4, ?_, ?_, ?_⟩
        · intro t ht
          rcases List.mem_cons.1 ht with e | e
          · rw [e]; exact hrem
          · exact g5 t e
        · have h1 : (root :: rest).Perm (root :: ys) := List.Perm.cons root hperm.symm
          have h2 : (root :: ys).Perm (root :: s :: (dead ++ q2.m_elements)) :=
            List.Perm.cons root g6
          exact (h1.trans h2).trans (List.Perm.swap s root _)
        · intro hn hh
          obtain ⟨j1, j2⟩ := hheap hn hh
          have hnys : NoNaN ys := fun t ht =>
            hn t (List.mem_cons_of_mem _ (hperm.mem_iff.1 ht))
          obtain ⟨k1, k2, k3⟩ := g7 hnys j1
          refine ⟨k1, ?_, k3⟩
          intro t ht
          rcases List.mem_cons.1 ht with e | e
          · rw [e]
            have hs : s ∈ ys := g6.mem_iff.2 (List.mem_cons_self _ _)
            exact j2 s (hperm.mem_iff.1 hs)
          · exact k2 t e

theorem pop_cases {q : PriorityQueue} {o : Option PyObj} {q2 : PriorityQueue}
    (h : q.pop = .ok (o, q2)) :
    (q.has_items = false ∧ o = none ∧ q2 = q) ∨
    (q.has_items = true ∧ ∃ obj, o = some obj ∧
      popLoop q.m_elements.length q = .ok (obj, q2)) := by
  unfold pop at h
  rcases hit : q.has_items with _ | _
  · left
    simp only [hit, Bool.not_false, if_true, Except.ok.injEq, Prod.mk.injEq] at h
    exact ⟨rfl, h.1.symm, h.2.symm⟩
  · right
    simp only [hit, Bool.not_true, Bool.false_eq_true, if_false] at h
    rcases hl : popLoop q.m_elements.length q with f | ⟨obj, q3⟩
    · rw [hl] at h; cases h
    · rw [hl] at h
      simp only [Except.ok.injEq, Prod.mk.injEq] at h
      exact ⟨rfl, obj, h.1.symm, by rw [h.2]⟩

theorem pop_of_popLoop {q : PriorityQueue} {obj : PyObj} {q2 : PriorityQueue}
    (hit : q.has_items = true) (h : popLoop q.m_elements.length q = .ok (obj, q2)) :
    q.pop = .ok (some obj, q2) := by
  unfold pop
  simp only [hit, Bool.not_true, Bool.false_eq_true, if_false, h]

theorem pop_of_not_has_items {q : PriorityQueue} (hit : q.has_items = false) :
    q.pop = .ok (none, q) := by
  unfold pop
  simp only [hit, Bool.not_false, if_true]

theorem consistent_popLoop {q : PriorityQueue} (hq : Consistent q) {n : Nat} {obj : PyObj}
    {q2 : PriorityQueue} (h : popLoop n q = .ok (obj, q2)) : Consistent q2 := by
  obtain ⟨s, dead, g1, _, _, g4, g5, g6, g7⟩ := popLoop_spec n q obj q2 h
  have hsub : ∀ t, t ∈ q2.m_elements → t ∈ q.m_elements := by
    intro t ht
    apply g6.mem_iff.2
    exact List.mem_cons_of_mem _ (List.mem_append_right _ ht)
  refine ⟨?_, ?_, ?_, ?_⟩
  · rw [g4]; exact T_HASH_DICT.keys_erase_nodup _ hq.keys
  · have h1 := (g6.map Slot.ptr).nodup_iff.1 hq.ptrs
    simp only [List.map_cons, List.map_append, List.nodup_cons] at h1
    exact (List.nodup_append.1 h1.2).2.1
  · intro t ht; exact hq.hash t (hsub t ht)
  · intro key p hf
    rw [g4] at hf
    obtain ⟨hne, hf2⟩ := T_HASH_DICT.find_erase_some hf
    obtain ⟨t, ht, h1, h2, h3⟩ := hq.live key p hf2
    refine ⟨t, ?_, h1, h2, h3⟩
    rcases List.mem_cons.1 (g6.mem_iff.1 ht) with e | e
    · rw [e] at h2; exact absurd h2.symm hne
    · rcases List.mem_append.1 e with e2 | e2
      · have := g5 t e2
        rw [h3] at this; cases this
      · exact e2

theorem consistent_pop {q : PriorityQueue} (hq : Consistent q) {o : Option PyObj}
    {q2 : PriorityQueue} (h : q.pop = .ok (o, q2)) : Consistent q2 := by
  rcases pop_cases h with ⟨_, _, e⟩ | ⟨_, obj, _, hl⟩
  · rw [e]; exact hq
  · exact consistent_popLoop hq hl

/-- Every reachable state is consistent. -/
theorem reachable_consistent {q : PriorityQueue} (h : Reachable q) : Consistent q := by
  induction h with
  | empty => exact consistent_empty
  | add obj score _ ih => exact consistent_add ih obj score
  | remove obj _ hr ih => exact consistent_remove ih hr
  | pop _ hp ih => exact consistent_pop ih hp

/-- With a live slot in the store and an Index entry for the key of every live
slot, the loop of `pop` succeeds. -/
theorem popLoop_total : ∀ (n : Nat) (q : PriorityQueue), q.m_elements.length ≤ n →
    (∃ s ∈ q.m_elements, s.elem.removed = false) →
    (∀ s ∈ q.m_elements, s.elem.removed = false → ∃ p, q.m_map.find s.elem.hash = some p) →
    ∃ r, popLoop n q = .ok r
  | 0, q, hn, ⟨s, hs, _⟩, _ => by
    have : q.m_elements = [] := List.eq_nil_of_length_eq_zero (by omega)
    rw [this] at hs; simp at hs
  | n + 1, q, hn, ⟨s, hs, hlive⟩, hidx => by
    rcases hels : q.m_elements with _ | ⟨root, rest⟩
    · rw [hels] at hs; simp at hs
    · obtain ⟨ys, hys, hperm, _⟩ := pop_heap_slots root rest
      rw [← hels] at hys
      have hroot : root ∈ q.m_elements := by rw [hels]; exact List.mem_cons_self _ _
      rcases hrem : root.elem.removed with _ | _
      · rw [popLoop_succ_live n q root ys hys hrem]
        obtain ⟨p, hp⟩ := hidx root hroot hrem
        rw [hp]
        exact ⟨_, rfl⟩
      · rw [popLoop_succ_dead n q root ys hys hrem]
        have hsub : ∀ t, t ∈ ys → t ∈ q.m_elements := by
          intro t ht; rw [hels]; exact List.mem_cons_of_mem _ (hperm.mem_iff.1 ht)
        apply popLoop_total n
        · simp only
          rw [hperm.length_eq]
          rw [hels] at hn
          simp only [List.length_cons] at hn
          omega
        · refine ⟨s, ?_, hlive⟩
          rw [hels] at hs
          rcases List.mem_cons.1 hs with e | e
          · rw [e, hrem] at hlive; cases hlive
          · exact hperm.mem_iff.2 e
        · intro t ht hl
          exact hidx t (hsub t ht) hl

/-- When every slot of the store is soft-deleted, the loop of `pop` discards
them all and then reads `back()` of the empty vector. -/
theorem popLoop_all_removed : ∀ (n : Nat) (q : PriorityQueue),
    (∀ s ∈ q.m_elements, s.elem.removed = true) → popLoop n q = .error Fault.emptyVector
  | 0, _, _ => rfl
  | n + 1, q, hall => by
    rcases hels : q.m_elements with _ | ⟨root, rest⟩
    · exact popLoop_nil _ _ hels
    · obtain ⟨ys, hys, hperm, _⟩ := pop_heap_slots root rest
      rw [← hels] at hys
      have hroot : root.elem.removed = true := hall root (by rw [hels]; exact List.mem_cons_self _ _)
      rw [popLoop_succ_dead n q root ys hys hroot]
      apply popLoop_all_removed n
      intro t ht
      exact hall t (by rw [hels]; exact List.mem_cons_of_mem _ (hperm.mem_iff.1 ht))

theorem has_items_iff (q : PriorityQueue) :
    q.has_items = true ↔ ∃ k p, q.m_map.find k = some p := by
  unfold has_items
  constructor
  · intro h
    apply T_HASH_DICT.exists_find_of_not_isEmpty
    simpa using h
  · rintro ⟨k, p, h⟩
    cases hm : q.m_map with
    | nil => rw [hm] at h; simp [T_HASH_DICT.find] at h
    | cons kv m => rfl

theorem contains_iff (q : PriorityQueue) (obj : PyObj) :
    q.contains obj = true ↔ ∃ p, q.m_map.find (PyObject_Hash obj) = some p := by
  unfold contains
  exact Option.isSome_iff_exists


/-- The bound passed to the loop of `pop` does not matter once it reaches the
length of the vector: the loop never stops for lack of iterations. -/
theorem popLoop_fuel : ∀ (n m : Nat) (q : PriorityQueue), q.m_elements.length ≤ n →
    q.m_elements.length ≤ m → popLoop n q = popLoop m q
  | 0, m, q, hn, _ => by
    have : q.m_elements = [] := List.eq_nil_of_length_eq_zero (by omega)
    rw [popLoop_nil _ _ this, popLoop_nil _ _ this]
  | n + 1, m, q, hn, hm => by
    rcases hels : q.m_elements with _ | ⟨root, rest⟩
    · rw [popLoop_nil _ _ hels, popLoop_nil _ _ hels]
    · rw [hels] at hn hm
      simp only [List.length_cons] at hn hm
      obtain ⟨m2, hm2⟩ : ∃ m2, m = m2 + 1 := ⟨m - 1, by omega⟩
      subst hm2
      obtain ⟨ys, hys, hperm, _⟩ := pop_heap_slots root rest
      rw [← hels] at hys
      rcases hrem : root.elem.removed with _ | _
      · rw [popLoop_succ_live n q root ys hys hrem, popLoop_succ_live m2 q root ys hys hrem]
      · rw [popLoop_succ_dead n q root ys hys hrem, popLoop_succ_dead m2 q root ys hys hrem]
        apply popLoop_fuel n m2
        · simp only; rw [hperm.length_eq]; omega
        · simp only; rw [hperm.length_eq]; omega


/-- A run without a fault ends in a reachable state. -/
theorem reachable_of_run : ∀ (ops : List Op) (q q2 : PriorityQueue), Reachable q →
    (run q ops).2 = .ok q2 → Reachable q2
  | [], q, q2, hr, h => by
    simp only [run, Except.ok.injEq] at h
    rw [← h]; exact hr
  | Op.add obj score :: ops, q, q2, hr, h => by
    simp only [run] at h
    exact reachable_of_run ops _ q2 (Reachable.add obj score hr) h
  | Op.remove obj :: ops, q, q2, hr, h => by
    simp only [run] at h
    rcases hrem : q.remove obj with f | r
    · rw [hrem] at h; cases h
    · rw [hrem] at h
      exact reachable_of_run ops _ q2 (Reachable.remove obj hr hrem) h
  | Op.pop :: ops, q, q2, hr, h => by
    simp only [run] at h
    rcases hpop : q.pop with f | ⟨o, q3⟩
    · rw [hpop] at h; cases h
    · rw [hpop] at h
      exact reachable_of_run ops _ q2 (Reachable.pop hr hpop) h

theorem contains_add_self (q : PriorityQueue) (x : PyObj) (s : Score) :
    (q.add x s).contains x = true := by
  rw [contains_iff, add_map]
  exact ⟨_, T_HASH_DICT.find_assign_self _ _ _⟩

theorem contains_add_of_contains {q : PriorityQueue} {x : PyObj} (h : q.contains x = true)
    (y : PyObj) (s : Score) : (q.add y s).contains x = true := by
  rw [contains_iff] at h ⊢
  rw [add_map]
  by_cases hk : PyObject_Hash x = PyObject_Hash y
  · rw [hk]; exact ⟨_, T_HASH_DICT.find_assign_self _ _ _⟩
  · rw [T_HASH_DICT.find_assign_ne _ _ _ hk]; exact h

theorem contains_remove_of_ne {q : PriorityQueue} {x y : PyObj} (h : q.contains x = true)
    (hne : PyObject_Hash y ≠ PyObject_Hash x) {r : RemoveOutcome} (hr : q.remove y = .ok r) :
    r.queue.contains x = true := by
  rcases remove_cases q y with hc | hc | hc
  · rw [hc.2] at hr; cases hr; exact h
  · obtain ⟨p, _, _, h3⟩ := hc
    rw [h3] at hr; cases hr
    rw [contains_iff] at h ⊢
    simp only
    rw [T_HASH_DICT.find_erase_ne _ _ (Ne.symm hne)]
    exact h
  · obtain ⟨p, _, _, h3⟩ := hc
    rw [h3] at hr; cases hr

theorem contains_pop_of_ne {q : PriorityQueue} (hq : Consistent q) {x : PyObj}
    (h : q.contains x = true) {o : Option PyObj} {q2 : PriorityQueue} (hp : q.pop = .ok (o, q2))
    (hne : ∀ p, o = some p → PyObject_Hash p ≠ PyObject_Hash x) : q2.contains x = true := by
  rcases pop_cases hp with ⟨_, _, e⟩ | ⟨_, obj, ho, hl⟩
  · rw [e]; exact h
  · obtain ⟨s, dead, _, g2, _, g4, _, g6, _⟩ := popLoop_spec _ q obj q2 hl
    have hs : s ∈ q.m_elements := g6.mem_iff.2 (List.mem_cons_self _ _)
    have hk : s.elem.hash ≠ PyObject_Hash x := by
      rw [hq.hash s hs, ← g2]; exact hne obj ho
    rw [contains_iff] at h ⊢
    rw [g4, T_HASH_DICT.find_erase_ne _ _ (Ne.symm hk)]
    exact h

theorem contains_run : ∀ (ops : List Op) (q : PriorityQueue) (x : PyObj)
    (outs : List (Option PyObj)) (q2 : PriorityQueue), Consistent q → q.contains x = true →
    run q ops = (outs, .ok q2) →
    (∀ y, Op.remove y ∈ ops → PyObject_Hash y ≠ PyObject_Hash x) →
    (∀ p, some p ∈ outs → PyObject_Hash p ≠ PyObject_Hash x) → q2.contains x = true
  | [], q, x, outs, q2, _, hc, h, _, _ => by
    simp only [run, Prod.mk.injEq, Except.ok.injEq] at h
    rw [← h.2]; exact hc
  | Op.add obj score :: ops, q, x, outs, q2, hq, hc, h, h1, h2 => by
    simp only [run] at h
    exact contains_run ops _ x outs q2 (consistent_add hq obj score)
      (contains_add_of_contains hc obj score) h
      (fun y hy => h1 y (List.mem_cons_of_mem _ hy)) h2
  | Op.remove obj :: ops, q, x, outs, q2, hq, hc, h, h1, h2 => by
    simp only [run] at h
    rcases hrem : q.remove obj with f | r
    · rw [hrem] at h; simp at h
    · rw [hrem] at h
      exact contains_run ops _ x outs q2 (consistent_remove hq hrem)
        (contains_remove_of_ne hc (h1 obj (List.mem_cons_self _ _)) hrem) h
        (fun y hy => h1 y (List.mem_cons_of_mem _ hy)) h2
  | Op.pop :: ops, q, x, outs, q2, hq, hc, h, h1, h2 => by
    simp only [run] at h
    rcases hpop : q.pop with f | ⟨o, q3⟩
    · rw [hpop] at h; simp at h
    · rw [hpop] at h
      simp only [Prod.mk.injEq] at h
      obtain ⟨ho, hq2⟩ := h
      have hrun : run q3 ops = ((run q3 ops).1, .ok q2) := by
        rw [← hq2]
      apply contains_run ops q3 x (run q3 ops).1 q2 (consistent_pop hq hpop) _ hrun
        (fun y hy => h1 y (List.mem_cons_of_mem _ hy))
      · intro p hp
        apply h2 p
        rw [← ho]
        exact List.mem_cons_of_mem _ hp
      · apply contains_pop_of_ne hq hc hpop
        intro p hp
        apply h2 p
        rw [← ho, hp]
        exact List.mem_cons_self _ _

theorem deref_of_mem {q : PriorityQueue} (hn : (q.m_elements.map Slot.ptr).Nodup) {s : Slot}
    (hs : s ∈ q.m_elements) : q.deref s.ptr = some s.elem := by
  unfold deref
  rcases hf : q.m_elements.find? (fun t => decide (t.ptr = s.ptr)) with _ | t
  · have := List.find?_eq_none.1 hf s hs
    simp at this
  · have h1 : t ∈ q.m_elements := List.mem_of_find?_eq_some hf
    have h2 : t.ptr = s.ptr := by simpa using List.find?_some hf
    rw [hf, eq_of_ptr_eq hn h1 hs h2]
    rfl

/-- The loop of `as_list` over a part `m` of the Index whose entries point to
live slots. -/
theorem as_list_loop (q : PriorityQueue) (hn : (q.m_elements.map Slot.ptr).Nodup) :
    ∀ m : T_HASH_DICT,
      (∀ kv ∈ m, ∃ s ∈ q.m_elements, s.ptr = kv.2 ∧ s.elem.hash = kv.1 ∧
        s.elem.removed = false) →
      ∃ slots : List Slot,
        m.mapM (fun kv =>
          match q.deref kv.2 with
          | some e => (Except.ok e.obj : Except Fault PyObj)
          | none => Except.error Fault.dangling) = .ok (slots.map (fun s => s.elem.obj)) ∧
        slots.map (fun s => (s.elem.hash, s.ptr)) = m ∧
        ∀ s ∈ slots, s ∈ q.m_elements ∧ s.elem.removed = false
  | [], _ => ⟨[], rfl, rfl, by simp⟩
  | kv :: m, h => by
    obtain ⟨s, hs, h1, h2, h3⟩ := h kv (List.mem_cons_self _ _)
    obtain ⟨slots, g1, g2, g3⟩ := as_list_loop q hn m
      (fun kv2 hkv2 => h kv2 (List.mem_cons_of_mem _ hkv2))
    refine ⟨s :: slots, ?_, ?_, ?_⟩
    · rw [List.mapM_cons, g1, ← h1, deref_of_mem hn hs]
      rfl
    · simp only [List.map_cons, g2, h1, h2]
    · intro t ht
      rcases List.mem_cons.1 ht with e | e
      · rw [e]; exact ⟨hs, h3⟩
      · exact g3 t e


/-- With INV2, `has_items()` says whether the store holds a live record. -/
theorem has_items_iff_live {q : PriorityQueue} (hq : Consistent q) (h2 : INV2 q) :
    q.has_items = true ↔ ∃ s ∈ q.m_elements, s.elem.removed = false := by
  constructor
  · intro hit
    obtain ⟨k, p, hf⟩ := (has_items_iff q).1 hit
    obtain ⟨s, hs, _, _, hl⟩ := hq.live k p hf
    exact ⟨s, hs, hl⟩
  · rintro ⟨s, hs, hl⟩
    exact (has_items_iff q).2 ⟨_, _, h2 s hs hl⟩

/-- With INV2, a successful `remove(x)` leaves no live record of `x` in the
store. -/
theorem no_live_record_after_remove {q : PriorityQueue} (hq : Consistent q) (h2 : INV2 q)
    {x : PyObj} {r : RemoveOutcome} (hrem : q.remove x = .ok r) :
    ∀ s ∈ r.queue.m_elements, s.elem.obj = x → s.elem.removed = true := by
  rcases remove_cases q x with hc | hc | hc
  · rw [hc.2] at hrem; cases hrem
    intro s hs hx
    cases hl : s.elem.removed with
    | true => rfl
    | false =>
      have h3 := h2 s hs hl
      rw [hq.hash s hs, hx, hc.1] at h3
      cases h3
  · obtain ⟨p, hfind, _, h3⟩ := hc
    rw [h3] at hrem; cases hrem
    intro t ht hx
    obtain ⟨s, hs, _, _, g3, _, g5, g6⟩ := mem_markRemoved ht
    by_cases hp : s.ptr = p
    · exact g5 hp
    · rw [g6 hp] at hx ⊢
      cases hl : s.elem.removed with
      | true => rfl
      | false =>
        have h4 := h2 s hs hl
        rw [hq.hash s hs, hx, hfind] at h4
        exact absurd (Option.some.inj h4).symm hp
  · obtain ⟨p, _, _, h3⟩ := hc
    rw [h3] at hrem; cases hrem

/-- While the store holds no live record of `x` and `x` is not added, no `pop`
returns `x`. -/
theorem run_never_returns : ∀ (ops : List Op) (q : PriorityQueue) (x : PyObj),
    (∀ s ∈ q.m_elements, s.elem.obj = x → s.elem.removed = true) →
    (∀ sc, Op.add x sc ∉ ops) → some x ∉ (run q ops).1
  | [], q, x, _, _ => by simp [run]
  | Op.add y sc :: ops, q, x, hP, hno => by
    simp only [run]
    apply run_never_returns ops _ x _ (fun sc2 h => hno sc2 (List.mem_cons_of_mem _ h))
    intro s hs hx
    rcases List.mem_cons.1 ((add_elements_perm q y sc).mem_iff.1 hs) with e | e
    · rw [e] at hx
      have hyx : y = x := hx
      exact absurd (by rw [hyx]; exact List.mem_cons_self _ _) (hno sc)
    · exact hP s e hx
  | Op.remove y :: ops, q, x, hP, hno => by
    simp only [run]
    rcases remove_cases q y with hc | hc | hc
    · rw [hc.2]
      exact run_never_returns ops _ x hP (fun sc2 h => hno sc2 (List.mem_cons_of_mem _ h))
    · obtain ⟨p, _, _, h3⟩ := hc
      rw [h3]
      apply run_never_returns ops _ x _ (fun sc2 h => hno sc2 (List.mem_cons_of_mem _ h))
      intro t ht hx
      obtain ⟨s, hs, _, _, g3, _, g5, g6⟩ := mem_markRemoved ht
      by_cases hp : s.ptr = p
      · exact g5 hp
      · rw [g6 hp] at hx ⊢
        exact hP s hs hx
    · obtain ⟨p, _, _, h3⟩ := hc
      rw [h3]
      simp
  | Op.pop :: ops, q, x, hP, hno => by
    simp only [run]
    rcases hpop : q.pop with f | ⟨o, q3⟩
    · simp
    · simp only [List.mem_cons, not_or]
      have hno2 : ∀ sc2, Op.add x sc2 ∉ ops := fun sc2 h => hno sc2 (List.mem_cons_of_mem _ h)
      rcases pop_cases hpop with ⟨_, ho, e⟩ | ⟨_, obj, ho, hl⟩
      · rw [ho, e]
        exact ⟨by simp, run_never_returns ops q x hP hno2⟩
      · obtain ⟨s, dead, g1, g2, _, _, _, g6, _⟩ := popLoop_spec _ q obj q3 hl
        have hs : s ∈ q.m_elements := g6.mem_iff.2 (List.mem_cons_self _ _)
        refine ⟨?_, run_never_returns ops q3 x ?_ hno2⟩
        · rw [ho, g2]
          intro hx
          have := hP s hs (Option.some.inj hx).symm
          rw [g1] at this; cases this
        · intro t ht hx
          exact hP t (g6.mem_iff.2
            (List.mem_cons_of_mem _ (List.mem_append_right _ ht))) hx

/-- In a reachable state with INV2, a successful `remove(x)` makes `contains(x)`
false, and no `pop` of a later sequence of calls without `add(x, _)` returns
`x`. -/
theorem removed_payload_stays_out {q : PriorityQueue} (hr : Reachable q) (h2 : INV2 q)
    {x : PyObj} {r : RemoveOutcome} (hrem : q.remove x = .ok r) (ops : List Op)
    (hno : ∀ sc, Op.add x sc ∉ ops) :
    r.queue.contains x = false ∧ some x ∉ (run r.queue ops).1 := by
  refine ⟨?_, run_never_returns ops r.queue x
    (no_live_record_after_remove (reachable_consistent hr) h2 hrem) hno⟩
  rcases remove_cases q x with hc | hc | hc
  · rw [hc.2] at hrem; cases hrem
    unfold contains; rw [hc.1]; rfl
  · obtain ⟨p, _, _, h3⟩ := hc
    rw [h3] at hrem; cases hrem
    unfold contains
    simp only
    rw [T_HASH_DICT.find_erase_self]; rfl
  · obtain ⟨p, _, _, h3⟩ := hc
    rw [h3] at hrem; cases hrem

theorem setRemoved_eq_self {s : Slot} (h : s.elem.removed = true) :
    ({ s with elem := { s.elem with removed := true } } : Slot) = s := by
  obtain ⟨ptr, ⟨score, obj, removed, hash⟩⟩ := s
  simp only at h
  subst h
  rfl

theorem mem_markRemoved_of_removed {p : Nat} {xs : List Slot} {s : Slot} (hs : s ∈ xs)
    (h : s.elem.removed = true) : s ∈ markRemoved p xs := by
  simp only [markRemoved, List.mem_map]
  refine ⟨s, hs, ?_⟩
  split
  · exact setRemoved_eq_self h
  · rfl

/-- With a live slot in the store, the loop of `pop` takes out soft-deleted
slots (`dead`) and then a live slot `s`; it returns the payload of `s` if the
Index has an entry for the key of `s`, and calls `erase(end())` otherwise.  It
never reaches the empty vector. -/
theorem popLoop_outcome : ∀ (n : Nat) (q : PriorityQueue), q.m_elements.length ≤ n →
    (∃ s ∈ q.m_elements, s.elem.removed = false) →
    ∃ s dead rest, q.m_elements.Perm (s :: (dead ++ rest)) ∧ s.elem.removed = false ∧
      (∀ t ∈ dead, t.elem.removed = true) ∧
      ((∃ p, q.m_map.find s.elem.hash = some p ∧
          popLoop n q = .ok (s.elem.obj,
            { m_map := T_HASH_DICT.erase s.elem.hash q.m_map, m_elements := rest })) ∨
       (q.m_map.find s.elem.hash = none ∧ popLoop n q = .error Fault.eraseEnd))
  | 0, q, hn, ⟨s, hs, _⟩ => by
    have : q.m_elements = [] := List.eq_nil_of_length_eq_zero (by omega)
    rw [this] at hs; simp at hs
  | n + 1, q, hn, ⟨s, hs, hlive⟩ => by
    rcases hels : q.m_elements with _ | ⟨root, rest⟩
    · rw [hels] at hs; simp at hs
    · obtain ⟨ys, hys, hperm, _⟩ := pop_heap_slots root rest
      rw [← hels] at hys
      rcases hrem : root.elem.removed with _ | _
      · refine ⟨root, [], ys, ?_, hrem, by simp, ?_⟩
        · simpa using hperm.symm
        · rw [popLoop_succ_live n q root ys hys hrem]
          rcases hfind : T_HASH_DICT.find root.elem.hash q.m_map with _ | p
          · right; exact ⟨rfl, rfl⟩
          · left; exact ⟨p, rfl, rfl⟩
      · rw [popLoop_succ_dead n q root ys hys hrem]
        have hlen : ys.length ≤ n := by
          rw [hperm.length_eq]
          rw [hels] at hn
          simp only [List.length_cons] at hn
          omega
        have hex : ∃ t ∈ ys, t.elem.removed = false := by
          refine ⟨s, ?_, hlive⟩
          rw [hels] at hs
          rcases List.mem_cons.1 hs with e | e
          · rw [e, hrem] at hlive; cases hlive
          · exact hperm.mem_iff.2 e
        obtain ⟨s2, dead, rest2, g1, g2, g3, g4⟩ :=
          popLoop_outcome n { q with m_elements := ys } hlen hex
        simp only at g1 g4
        refine ⟨s2, root :: dead, rest2, ?_, g2, ?_, g4⟩
        · have h1 : (root :: rest).Perm (root :: ys) := List.Perm.cons root hperm.symm
          have h2 : (root :: ys).Perm (root :: s2 :: (dead ++ rest2)) := List.Perm.cons root g1
          exact (h1.trans h2).trans (List.Perm.swap s2 root _)
        · intro t ht
          rcases List.mem_cons.1 ht with e | e
          · rw [e]; exact hrem
          · exact g3 t e

theorem reachableFresh_reachable {q : PriorityQueue} (h : ReachableFresh q) : Reachable q := by
  induction h with
  | empty => exact Reachable.empty
  | add obj score _ _ ih => exact Reachable.add obj score ih
  | remove obj _ hr ih => exact Reachable.remove obj ih hr
  | pop _ hp ih => exact Reachable.pop ih hp

theorem inv2_add_fresh {q : PriorityQueue} (h2 : INV2 q) {obj : PyObj}
    (hc : q.contains obj = false) (score : Score) : INV2 (q.add obj score) := by
  intro s hs hlive
  rw [add_map]
  rcases List.mem_cons.1 ((add_elements_perm q obj score).mem_iff.1 hs) with e | e
  · rw [e]
    exact T_HASH_DICT.find_assign_self _ _ _
  · have h3 := h2 s e hlive
    have hne : s.elem.hash ≠ PyObject_Hash obj := by
      intro heq
      unfold contains at hc
      rw [← heq, h3] at hc
      cases hc
    rw [T_HASH_DICT.find_assign_ne _ _ _ hne]
    exact h3

theorem inv2_remove {q : PriorityQueue} (h2 : INV2 q) {obj : PyObj} {r : RemoveOutcome}
    (hrem : q.remove obj = .ok r) : INV2 r.queue := by
  rcases remove_cases q obj with hc | hc | hc
  · rw [hc.2] at hrem; cases hrem; exact h2
  · obtain ⟨p, hfind, _, h3⟩ := hc
    rw [h3] at hrem; cases hrem
    intro t ht hlive
    obtain ⟨s, hs, _, _, _, _, g5, g6⟩ := mem_markRemoved ht
    by_cases hp : s.ptr = p
    · rw [g5 hp] at hlive; cases hlive
    · rw [g6 hp] at hlive ⊢
      have h4 := h2 s hs hlive
      have hne : s.elem.hash ≠ PyObject_Hash obj := by
        intro heq
        rw [heq, hfind] at h4
        exact hp (Option.some.inj h4).symm
      simp only
      rw [T_HASH_DICT.find_erase_ne _ _ hne]
      exact h4
  · obtain ⟨p, _, _, h3⟩ := hc
    rw [h3] at hrem; cases hrem

theorem inv2_pop {q : PriorityQueue} (hq : Consistent q) (h2 : INV2 q) {o : Option PyObj}
    {q2 : PriorityQueue} (hp : q.pop = .ok (o, q2)) : INV2 q2 := by
  rcases pop_cases hp with ⟨_, _, e⟩ | ⟨_, obj, _, hl⟩
  · rw [e]; exact h2
  · obtain ⟨s, dead, g1, _, _, g4, _, g6, _⟩ := popLoop_spec _ q obj q2 hl
    have hs : s ∈ q.m_elements := g6.mem_iff.2 (List.mem_cons_self _ _)
    have hnd := (g6.map Slot.ptr).nodup_iff.1 hq.ptrs
    simp only [List.map_cons, List.map_append, List.nodup_cons, List.mem_append, not_or] at hnd
    intro t ht hlive
    have htq : t ∈ q.m_elements :=
      g6.mem_iff.2 (List.mem_cons_of_mem _ (List.mem_append_right _ ht))
    have h4 := h2 t htq hlive
    have hne : t.elem.hash ≠ s.elem.hash := by
      intro heq
      have h5 := h2 s hs g1
      rw [heq, h5] at h4
      have hpt : s.ptr = t.ptr := Option.some.inj h4
      exact hnd.1.2 (by rw [hpt]; exact List.mem_map.2 ⟨t, ht, rfl⟩)
    rw [g4, T_HASH_DICT.find_erase_ne _ _ hne]
    exact h4

/-- INV2 holds as long as no key is added while it has an Index entry. -/
theorem reachableFresh_inv2 {q : PriorityQueue} (h : ReachableFresh q) : INV2 q := by
  induction h with
  | empty => intro s hs; simp [PriorityQueue.empty] at hs
  | add obj score _ hc ih => exact inv2_add_fresh ih hc score
  | remove obj _ hr ih => exact inv2_remove ih hr
  | pop hq hp ih => exact inv2_pop (reachable_consistent (reachableFresh_reachable hq)) ih hp

/-- Without NaN scores, the first entry of a heap carries a least score. -/
theorem head_le_of_is_heap {xs : List Slot} (hn : NoNaN xs)
    (h : std.is_heap PriorityQueueElement.compare xs) {root : Slot}
    (hroot : xs.head? = some root) :
    ∀ t ∈ xs, root.elem.score.le t.elem.score = true := by
  cases xs with
  | nil => simp at hroot
  | cons a rest =>
    simp only [List.head?_cons, Option.some.injEq] at hroot
    subst hroot
    intro t ht
    apply score_le_of_scoreOf_le (hn a (List.mem_cons_self _ _)) (hn t ht)
    rcases List.mem_cons.1 ht with e | e
    · rw [e]
    · exact heapOn_root_le_mem a a rest ((is_heap_iff a _ hn).1 h) t e

theorem ordered_empty : Ordered PriorityQueue.empty where
  nonan := by intro s hs; simp [PriorityQueue.empty] at hs
  heap := by
    intro j a b _ ha _
    simp [PriorityQueue.empty] at ha

theorem ordered_add {q : PriorityQueue} (hq : Ordered q) (obj : PyObj) {score : Score}
    (hsc : score ≠ Score.nan) : Ordered (q.add obj score) := by
  have hperm := add_elements_perm q obj score
  have hnew : NoNaN (q.add obj score).m_elements := by
    intro t ht
    rcases List.mem_cons.1 (hperm.mem_iff.1 ht) with e | e
    · rw [e]; exact hsc
    · exact hq.nonan t e
  refine ⟨hnew, ?_⟩
  have hall : NoNaN
      (q.m_elements ++ [⟨q.alloc, PriorityQueueElement.create score obj (PyObject_Hash obj)⟩]) := by
    intro t ht
    rcases List.mem_append.1 ht with e | e
    · exact hq.nonan t e
    · rw [List.mem_singleton.1 e]; exact hsc
  have hcong := std.push_heap_congr PriorityQueueElement.compare compareNum
    (fun s => s.elem.score ≠ Score.nan) compare_eq_compareNum _ hall
  rw [is_heap_iff ⟨q.alloc, PriorityQueueElement.create score obj (PyObject_Hash obj)⟩ _ hnew]
  rw [add_elements, hcong]
  apply std.push_heap_heapOn scoreOf _ compareNum_iff
  exact (is_heap_iff _ _ hq.nonan).1 hq.heap

theorem ordered_remove {q : PriorityQueue} (hq : Ordered q) {obj : PyObj}
    {r : RemoveOutcome} (h : q.remove obj = .ok r) : Ordered r.queue := by
  rcases remove_cases q obj with hc | hc | hc
  · rw [hc.2] at h; cases h; exact hq
  · obtain ⟨p, _, _, h3⟩ := hc
    rw [h3] at h; cases h
    exact ⟨markRemoved_nonan _ _ hq.nonan, markRemoved_heap _ _ hq.heap⟩
  · obtain ⟨p, _, _, h3⟩ := hc
    rw [h3] at h; cases h

theorem ordered_pop {q : PriorityQueue} (hq : Ordered q) {o : Option PyObj}
    {q2 : PriorityQueue} (h : q.pop = .ok (o, q2)) : Ordered q2 := by
  rcases pop_cases h with ⟨_, _, e⟩ | ⟨_, obj, _, hl⟩
  · rw [e]; exact hq
  · obtain ⟨s, dead, _, _, _, _, _, g6, g7⟩ := popLoop_spec _ q obj q2 hl
    refine ⟨?_, (g7 hq.nonan hq.heap).1⟩
    intro t ht
    exact hq.nonan t (g6.mem_iff.2 (List.mem_cons_of_mem _ (List.mem_append_right _ ht)))

theorem reachableNum_reachable {q : PriorityQueue} (h : ReachableNum q) : Reachable q := by
  induction h with
  | empty => exact Reachable.empty
  | add obj score _ _ ih => exact Reachable.add obj score ih
  | remove obj _ hr ih => exact Reachable.remove obj ih hr
  | pop _ hp ih => exact Reachable.pop ih hp

/-- As long as no NaN score is added, the store holds no NaN score and is a heap
with respect to `compare`. -/
theorem reachableNum_ordered {q : PriorityQueue} (h : ReachableNum q) : Ordered q := by
  induction h with
  | empty => exact ordered_empty
  | add obj score _ hsc ih => exact ordered_add ih obj hsc
  | remove obj _ hr ih => exact ordered_remove ih hr
  | pop _ hp ih => exact ordered_pop ih hp

/-- A run without a fault that adds no NaN score ends in a state of
`ReachableNum`. -/
theorem reachableNum_of_run : ∀ (ops : List Op) (q q2 : PriorityQueue), ReachableNum q →
    (∀ op ∈ ops, op.numeric = true) → (run q ops).2 = .ok q2 → ReachableNum q2
  | [], q, q2, hr, _, h => by
    simp only [run, Except.ok.injEq] at h
    rw [← h]; exact hr
  | Op.add obj score :: ops, q, q2, hr, hno, h => by
    simp only [run] at h
    have hsc : score ≠ Score.nan := by
      have := hno _ (List.mem_cons_self _ _)
      simpa [Op.numeric] using this
    exact reachableNum_of_run ops _ q2 (ReachableNum.add obj score hr hsc)
      (fun o ho => hno o (List.mem_cons_of_mem _ ho)) h
  | Op.remove obj :: ops, q, q2, hr, hno, h => by
    simp only [run] at h
    rcases hrem : q.remove obj with f | r
    · rw [hrem] at h; cases h
    · rw [hrem] at h
      exact reachableNum_of_run ops _ q2 (ReachableNum.remove obj hr hrem)
        (fun o ho => hno o (List.mem_cons_of_mem _ ho)) h
  | Op.pop :: ops, q, q2, hr, hno, h => by
    simp only [run] at h
    rcases hpop : q.pop with f | ⟨o, q3⟩
    · rw [hpop] at h; cases h
    · rw [hpop] at h
      exact reachableNum_of_run ops _ q2 (ReachableNum.pop hr hpop)
        (fun o ho => hno o (List.mem_cons_of_mem _ ho)) h

theorem pop_of_popLoop_error {q : PriorityQueue} {f : Fault} (hit : q.has_items = true)
    (h : popLoop q.m_elements.length q = .error f) : q.pop = .error f := by
  unfold pop
  simp only [hit, Bool.not_true, Bool.false_eq_true, if_false, h]

/-- In a consistent state with INV2 and a non-empty Index, `pop()` returns the
payload of a live record and erases that record's own Index entry. -/
theorem pop_of_inv2 {q : PriorityQueue} (hq : Consistent q) (h2 : INV2 q)
    (hit : q.has_items = true) :
    ∃ s ∈ q.m_elements, ∃ q2, q.pop = .ok (some s.elem.obj, q2) ∧ s.elem.removed = false ∧
      q.m_map.find s.elem.hash = some s.ptr ∧
      q2.m_map = T_HASH_DICT.erase s.elem.hash q.m_map := by
  obtain ⟨k, p, hf⟩ := (has_items_iff q).1 hit
  obtain ⟨s0, hs0, _, _, hl0⟩ := hq.live k p hf
  obtain ⟨⟨obj, q2⟩, hl⟩ := popLoop_total q.m_elements.length q (le_refl _) ⟨s0, hs0, hl0⟩
    (fun s hs hlive => ⟨s.ptr, h2 s hs hlive⟩)
  obtain ⟨s, dead, g1, g2, _, g4, _, g6, _⟩ := popLoop_spec _ q obj q2 hl
  have hs : s ∈ q.m_elements := g6.mem_iff.2 (List.mem_cons_self _ _)
  refine ⟨s, hs, q2, ?_, g1, h2 s hs g1, g4⟩
  rw [← g2]; exact pop_of_popLoop hit hl

/-- With no NaN score in a heap store, what the loop of `pop` returns is the
payload of a live record whose score is at most the score of every live
record. -/
theorem popLoop_live_minimum {q : PriorityQueue} (ho : Ordered q) {n : Nat} {obj : PyObj}
    {q2 : PriorityQueue} (hl : popLoop n q = .ok (obj, q2)) :
    ∃ s ∈ q.m_elements, s.elem.obj = obj ∧ s.elem.removed = false ∧
      ∀ t ∈ q.m_elements, t.elem.removed = false → s.elem.score.le t.elem.score = true := by
  obtain ⟨s, dead, g1, g2, _, _, g5, g6, g7⟩ := popLoop_spec _ q obj q2 hl
  have hs : s ∈ q.m_elements := g6.mem_iff.2 (List.mem_cons_self _ _)
  refine ⟨s, hs, g2.symm, g1, ?_⟩
  intro t ht hlive
  apply score_le_of_scoreOf_le (ho.nonan s hs) (ho.nonan t ht)
  rcases List.mem_cons.1 (g6.mem_iff.1 ht) with e | e
  · rw [e]
  · rcases List.mem_append.1 e with e2 | e2
    · have := g5 t e2
      rw [hlive] at this; cases this
    · exact (g7 ho.nonan ho.heap).2.2 t e2

/-- Whatever `pop()` returns in a state reached without adding a NaN score is
the payload of a live record of least score among the live records of the
store. -/
theorem pop_ok_live_minimum {q : PriorityQueue} (hr : ReachableNum q) {p : PyObj}
    {q2 : PriorityQueue} (hp : q.pop = .ok (some p, q2)) :
    ∃ s ∈ q.m_elements, s.elem.obj = p ∧ s.elem.removed = false ∧
      ∀ t ∈ q.m_elements, t.elem.removed = false → s.elem.score.le t.elem.score = true := by
  rcases pop_cases hp with ⟨_, ho, _⟩ | ⟨_, obj, ho, hl⟩
  · cases ho
  · have hop : obj = p := (Option.some.inj ho).symm
    rw [hop] at hl
    exact popLoop_live_minimum (reachableNum_ordered hr) hl

/-- In every reachable state with `has_items()` true the store holds a live
record; the loop of `pop()` takes out soft-deleted records and then a live one,
at most `|m_elements|` records in all, and never reaches the empty vector.
What follows the loop is either the return or, if the Index has no entry for
that record's key, the undefined `erase(end())`. -/
theorem has_items_pop_outcome (q : PriorityQueue) (hr : Reachable q)
    (hit : q.has_items = true) :
    (∃ s ∈ q.m_elements, s.elem.removed = false) ∧
    (∃ s dead rest, q.m_elements.Perm (s :: (dead ++ rest)) ∧ s.elem.removed = false ∧
      (∀ t ∈ dead, t.elem.removed = true) ∧ dead.length + 1 ≤ q.m_elements.length ∧
      ((∃ p, q.m_map.find s.elem.hash = some p ∧
          q.pop = .ok (some s.elem.obj,
            { m_map := T_HASH_DICT.erase s.elem.hash q.m_map, m_elements := rest })) ∨
       (q.m_map.find s.elem.hash = none ∧ q.pop = .error Fault.eraseEnd))) ∧
    q.pop ≠ .error Fault.emptyVector ∧
    ∀ n, q.m_elements.length ≤ n → popLoop n q = popLoop q.m_elements.length q := by
  have hq := reachable_consistent hr
  obtain ⟨k, p, hf⟩ := (has_items_iff q).1 hit
  obtain ⟨s0, hs0, _, _, hl0⟩ := hq.live k p hf
  obtain ⟨s, dead, rest, g1, g2, g3, g4⟩ :=
    popLoop_outcome q.m_elements.length q (le_refl _) ⟨s0, hs0, hl0⟩
  have hlen : dead.length + 1 ≤ q.m_elements.length := by
    rw [g1.length_eq]
    simp only [List.length_cons, List.length_append]
    omega
  have hpop : (∃ p, q.m_map.find s.elem.hash = some p ∧
        q.pop = .ok (some s.elem.obj,
          { m_map := T_HASH_DICT.erase s.elem.hash q.m_map, m_elements := rest })) ∨
      (q.m_map.find s.elem.hash = none ∧ q.pop = .error Fault.eraseEnd) := by
    rcases g4 with ⟨p2, h1, h2⟩ | ⟨h1, h2⟩
    · exact Or.inl ⟨p2, h1, pop_of_popLoop hit h2⟩
    · exact Or.inr ⟨h1, pop_of_popLoop_error hit h2⟩
  refine ⟨⟨s0, hs0, hl0⟩, ⟨s, dead, rest, g1, g2, g3, hlen, hpop⟩, ?_,
    fun n hn => popLoop_fuel n _ q hn (le_refl _)⟩
  rcases hpop with ⟨_, _, h⟩ | ⟨_, h⟩
  · rw [h]; intro e; cases e
  · rw [h]; intro e; cases e

end PriorityQueue

/-! ## The claims -/

namespace PriorityQueue

/-- C1 (amended): in every state reachable from the empty queue by add/remove/pop
with scores that are numbers (no call of `add` passes a NaN), in which every
live element of the store is the one the Index holds for its key (INV2) and
`has_items()` is true, `pop()` returns the payload of a live element whose
score is the minimum among the scores of all live elements. -/
theorem C1_pop_returns_live_minimum (q : PriorityQueue) (hr : ReachableNum q) (h2 : INV2 q)
    (hit : q.has_items = true) :
    ∃ s ∈ q.m_elements, ∃ q2, q.pop = .ok (some s.elem.obj, q2) ∧ s.elem.removed = false ∧
      ∀ t ∈ q.m_elements, t.elem.removed = false →
        s.elem.score.le t.elem.score = true := by
  have hq := reachable_consistent (reachableNum_reachable hr)
  obtain ⟨k, p, hf⟩ := (has_items_iff q).1 hit
  obtain ⟨s0, hs0, _, _, hl0⟩ := hq.live k p hf
  obtain ⟨⟨obj, q2⟩, hl⟩ := popLoop_total q.m_elements.length q (le_refl _) ⟨s0, hs0, hl0⟩
    (fun s hs hlive => ⟨s.ptr, h2 s hs hlive⟩)
  obtain ⟨s, hs, g1, g2, g3⟩ := popLoop_live_minimum (reachableNum_ordered hr) hl
  refine ⟨s, hs, q2, ?_, g2, g3⟩
  rw [g1]; exact pop_of_popLoop hit hl

/-- C1 (witness): the amended claim at the state after
`add(A,1); add(B,2); add(C,3); remove(B)`, where three calls of `pop()` return
`A`, then `C`, then the empty sentinel. -/
theorem C1_pop_returns_live_minimum_witness :
    ReachableNum stateABC ∧ INV2 stateABC ∧ stateABC.has_items = true ∧
    (∃ s ∈ stateABC.m_elements, ∃ q2, stateABC.pop = .ok (some s.elem.obj, q2) ∧
      s.elem.removed = false ∧
      ∀ t ∈ stateABC.m_elements, t.elem.removed = false →
        s.elem.score.le t.elem.score = true) ∧
    run stateABC [Op.pop, Op.pop, Op.pop] =
      ([some objA, some objC, none], .ok PriorityQueue.empty) :=
  have hr : ReachableNum stateABC :=
    reachableNum_of_run [Op.add objA 1, Op.add objB 2, Op.add objC 3, Op.remove objB]
      PriorityQueue.empty stateABC ReachableNum.empty (by decide) (by decide)
  ⟨hr, by decide, by decide, C1_pop_returns_live_minimum stateABC hr (by decide) (by decide),
    by decide⟩

/-- C1 (counterexample): after `add(A,1); add(B,2); add(C,3); remove(B)` the queue has
items and `pop()` returns `A`, whose score 1 is below the score 3 of the live
element `C`: no live element of maximal score is returned.  After
`add(A,1); add(A,5); pop(); add(B,9)` the queue has items, but `pop()` returns
nothing at all: it calls `erase(end())`.  And after
`add(A,2); add(B,NaN); add(C,1); add(D,0)`, a state with four distinct keys
and INV2, `pop()` returns `C` with score 1 while `A` with score 2 and `D` with
score 0 are live: with a NaN in the store neither the maximum nor the minimum
is returned. -/
theorem C1_pop_maximum_counterexample :
    (Reachable stateABC ∧ stateABC.has_items = true ∧
      (∃ q2, stateABC.pop = .ok (some objA, q2)) ∧
      ¬ ∃ s ∈ stateABC.m_elements, ∃ q2, stateABC.pop = .ok (some s.elem.obj, q2) ∧
          s.elem.removed = false ∧
          ∀ t ∈ stateABC.m_elements, t.elem.removed = false →
            t.elem.score.le s.elem.score = true) ∧
    (Reachable (stateAApop.add objB 9) ∧ (stateAApop.add objB 9).has_items = true ∧
      (stateAApop.add objB 9).pop = .error Fault.eraseEnd) ∧
    ((run PriorityQueue.empty
        [Op.add objA 2, Op.add objB Score.nan, Op.add objC 1, Op.add objD 0]).2 = .ok stateNaN ∧
      Reachable stateNaN ∧ INV2 stateNaN ∧ stateNaN.has_items = true ∧
      (∃ q2, stateNaN.pop = .ok (some objC, q2)) ∧
      { ptr := 3, elem := { score := 1, obj := objC, removed := false, hash := 103 } }
        ∈ stateNaN.m_elements ∧
      { ptr := 1, elem := { score := 2, obj := objA, removed := false, hash := 101 } }
        ∈ stateNaN.m_elements ∧
      { ptr := 4, elem := { score := 0, obj := objD, removed := false, hash := 104 } }
        ∈ stateNaN.m_elements ∧
      (¬ ∃ s ∈ stateNaN.m_elements, ∃ q2, stateNaN.pop = .ok (some s.elem.obj, q2) ∧
          s.elem.removed = false ∧
          ∀ t ∈ stateNaN.m_elements, t.elem.removed = false →
            t.elem.score.le s.elem.score = true) ∧
      ¬ ∃ s ∈ stateNaN.m_elements, ∃ q2, stateNaN.pop = .ok (some s.elem.obj, q2) ∧
          s.elem.removed = false ∧
          ∀ t ∈ stateNaN.m_elements, t.elem.removed = false →
            s.elem.score.le t.elem.score = true) := by
  refine ⟨?_, ⟨reachable_of_run [Op.add objA 1, Op.add objA 5, Op.pop, Op.add objB 9]
      PriorityQueue.empty _ Reachable.empty (by decide), by decide, by decide⟩, ?_⟩
  · have hpop : stateABC.pop = .ok (some objA,
        { m_map := [(103, 3)],
          m_elements :=
            [ { ptr := 2, elem := { score := 2, obj := objB, removed := true, hash := 102 } },
              { ptr := 3, elem := { score := 3, obj := objC, removed := false, hash := 103 } } ] }) := by
      decide
    refine ⟨reachable_of_run [Op.add objA 1, Op.add objB 2, Op.add objC 3, Op.remove objB]
        PriorityQueue.empty stateABC Reachable.empty (by decide), by decide, ⟨_, hpop⟩, ?_⟩
    rintro ⟨s, hs, q2, hp, _, hmax⟩
    rw [hpop] at hp
    simp only [Except.ok.injEq, Prod.mk.injEq, Option.some.injEq] at hp
    have h3 := hmax { ptr := 3, elem := { score := 3, obj := objC, removed := false, hash := 103 } }
      (by decide) rfl
    simp only [stateABC, List.mem_cons, List.mem_singleton, List.not_mem_nil, or_false] at hs
    rcases hs with e | e | e
    · rw [e] at h3; revert h3; decide
    · rw [e] at hp; exact absurd hp.1 (by decide)
    · rw [e] at hp; exact absurd hp.1 (by decide)
  · have hrun : (run PriorityQueue.empty
        [Op.add objA 2, Op.add objB Score.nan, Op.add objC 1, Op.add objD 0]).2 =
          .ok stateNaN := by decide
    have hpop : stateNaN.pop = .ok (some objC,
        { m_map := [(104, 4), (102, 2), (101, 1)],
          m_elements := (std.pop_heap PriorityQueueElement.compare
            stateNaN.m_elements).dropLast }) := by
      decide
    have hobj : ∀ s ∈ stateNaN.m_elements, s.elem.obj = objC →
        s = { ptr := 3, elem := { score := 1, obj := objC, removed := false, hash := 103 } } := by
      decide
    refine ⟨hrun, reachable_of_run _ PriorityQueue.empty stateNaN Reachable.empty hrun,
      by decide, by decide, ⟨_, hpop⟩, by decide, by decide, by decide, ?_, ?_⟩
    · rintro ⟨s, hs, q2, hp, _, hmax⟩
      rw [hpop] at hp
      simp only [Except.ok.injEq, Prod.mk.injEq, Option.some.injEq] at hp
      have e := hobj s hs hp.1.symm
      have h3 := hmax
        { ptr := 1, elem := { score := 2, obj := objA, removed := false, hash := 101 } }
        (by decide) rfl
      rw [e] at h3; revert h3; decide
    · rintro ⟨s, hs, q2, hp, _, hmin⟩
      rw [hpop] at hp
      simp only [Except.ok.injEq, Prod.mk.injEq, Option.some.injEq] at hp
      have e := hobj s hs hp.1.symm
      have h3 := hmin
        { ptr := 4, elem := { score := 0, obj := objD, removed := false, hash := 104 } }
        (by decide) rfl
      rw [e] at h3; revert h3; decide

/-- C2 (the code at the failing input): `add(A,1); add(A,5)` is not an upsert.  After
`add(B,3); add(A,1); add(A,5)` draining returns `A, B`, while after
`add(B,3); add(A,5)` it returns `B, A`; the superseded record of `A` stays live
in the store, so that after `add(A,1); add(A,5); pop()` a further
`add(B,9); pop()` calls `erase(end())`, and with `-1`, `-2` (equal hashes) in
place of `A`, `B` the payload `-1` is returned a second time. -/
theorem C2_duplicate_add_is_not_upsert :
    drain (((PriorityQueue.empty.add objB 3).add objA 1).add objA 5) = .ok [objA, objB] ∧
    drain ((PriorityQueue.empty.add objB 3).add objA 5) = .ok [objB, objA] ∧
    run PriorityQueue.empty [Op.add objA 1, Op.add objA 5, Op.pop] =
      ([some objA], .ok stateAApop) ∧
    stateAApop.has_items = false ∧
    run stateAApop [Op.add objB 9, Op.pop] = ([], .error Fault.eraseEnd) ∧
    (run PriorityQueue.empty
      [Op.add objM1 1, Op.add objM1 5, Op.pop, Op.add objM2 9, Op.pop]).1 =
      [some objM1, some objM1] := by
  decide

/-- C3 (the code at the failing input): after `add(-1,1); add(-1,5)` the payload `-1` is
contained and `remove(-1)` succeeds, leaving `contains(-1)` false; the first
record of `-1` is still live in the store, and without any further `add(-1, _)`
the calls `add(-2,9); pop()` return `-1` (`-2` has the hash of `-1`), while
`add(B,9); pop()` calls `erase(end())`. -/
theorem C3_removed_payload_is_returned :
    Reachable ((PriorityQueue.empty.add objM1 1).add objM1 5) ∧
    ((PriorityQueue.empty.add objM1 1).add objM1 5).contains objM1 = true ∧
    ((PriorityQueue.empty.add objM1 1).add objM1 5).remove objM1 =
      .ok { ret := (), stdout := [], queue := stateM1removed } ∧
    stateM1removed.contains objM1 = false ∧
    (run stateM1removed [Op.add objM2 9, Op.pop]).1 = [some objM1] ∧
    run stateM1removed [Op.add objB 9, Op.pop] = ([], .error Fault.eraseEnd) :=
  ⟨Reachable.add objM1 5 (Reachable.add objM1 1 Reachable.empty), by decide, by decide,
    by decide, by decide, by decide⟩

/-- C4 (the code at the failing input): the state after `add(A,1); add(A,5)` is reachable
and violates INV2: the first record of `A` is in the store with
`removed == false`, but the Index entry of its key points to the second one. -/
theorem C4_inv2_fails_after_duplicate_add :
    Reachable stateAA ∧ ¬ INV2 stateAA ∧
    (∃ s ∈ stateAA.m_elements, s.elem.removed = false ∧
      stateAA.m_map.find s.elem.hash ≠ some s.ptr) :=
  ⟨Reachable.add objA 5 (Reachable.add objA 1 Reachable.empty), by decide, by decide⟩

/-- C5: in every reachable state, `contains(x)` is true immediately after `add(x, s)`,
and it is still true after any further fault-free sequence of calls in which no
`remove` is given a payload with the key of `x` and no `pop` returns a payload
with the key of `x` (any `add`, any other `remove`, any other `pop`, also one
returning the empty sentinel, keep it). -/
theorem C5_contains_after_add (q : PriorityQueue) (hr : Reachable q) (x : PyObj) (s : Score)
    (ops : List Op) (outs : List (Option PyObj)) (q2 : PriorityQueue)
    (hrun : run (q.add x s) ops = (outs, .ok q2))
    (hrem : ∀ y, Op.remove y ∈ ops → PyObject_Hash y ≠ PyObject_Hash x)
    (hpop : ∀ p, some p ∈ outs → PyObject_Hash p ≠ PyObject_Hash x) :
    (q.add x s).contains x = true ∧ q2.contains x = true :=
  ⟨contains_add_self q x s,
    contains_run ops (q.add x s) x outs q2 (consistent_add (reachable_consistent hr) x s)
      (contains_add_self q x s) hrun hrem hpop⟩

/-- C5 (witness): after `add(B,7)` and `add(A,5)`, the calls `add(C,1); remove(B); pop()`
(the `pop` returns `C`) run without a fault and keep `contains(A)` true. -/
theorem C5_contains_after_add_witness :
    Reachable (PriorityQueue.empty.add objB 7) ∧
    run ((PriorityQueue.empty.add objB 7).add objA 5) [Op.add objC 1, Op.remove objB, Op.pop] =
      ([some objC], .ok stateBA) ∧
    ((PriorityQueue.empty.add objB 7).add objA 5).contains objA = true ∧
    stateBA.contains objA = true :=
  ⟨Reachable.add objB 7 Reachable.empty, by decide,
    C5_contains_after_add (PriorityQueue.empty.add objB 7)
      (Reachable.add objB 7 Reachable.empty) objA 5
      [Op.add objC 1, Op.remove objB, Op.pop] [some objC] stateBA (by decide)
      (by
        intro y hy
        simp only [List.mem_cons, Op.remove.injEq, List.not_mem_nil, or_false] at hy
        rcases hy with e | e | e
        · cases e
        · rw [e]; decide
        · cases e)
      (by
        intro p hp
        simp only [List.mem_singleton, Option.some.injEq] at hp
        rw [hp]; decide)⟩

/-- C6 (the code at the failing input): the state after `add(A,1); add(A,5); pop()` is
reachable, `has_items()` is false there, and yet the store holds a record with
`removed == false` (the second record of `A`). -/
theorem C6_has_items_false_with_live_element :
    Reachable stateAApop ∧ stateAApop.has_items = false ∧
    (∃ s ∈ stateAApop.m_elements, s.elem.removed = false) :=
  ⟨reachable_of_run [Op.add objA 1, Op.add objA 5, Op.pop] PriorityQueue.empty stateAApop
      Reachable.empty (by decide), by decide, by decide⟩

/-- C7 (amended): in every reachable state `as_list()` succeeds and holds exactly one
payload per Index entry, in the order of the entries: the payload of the slot
the entry points to, which is in the store, is not soft-deleted and carries the
entry's key; the keys of the Index are pairwise different.  Hence every listed
payload `p` has `contains(p)` true, and for every payload `x` with
`contains(x)` true a payload with the key of `x` is listed. -/
theorem C7_as_list_lists_index (q : PriorityQueue) (hr : Reachable q) :
    ∃ slots : List Slot,
      q.as_list = .ok (slots.map (fun s => s.elem.obj)) ∧
      slots.map (fun s => (s.elem.hash, s.ptr)) = q.m_map ∧
      q.m_map.keys.Nodup ∧
      (∀ s ∈ slots, s ∈ q.m_elements ∧ s.elem.removed = false ∧
        s.elem.hash = PyObject_Hash s.elem.obj) ∧
      (∀ p ∈ slots.map (fun s => s.elem.obj), q.contains p = true) ∧
      (∀ x, q.contains x = true →
        ∃ p ∈ slots.map (fun s => s.elem.obj), PyObject_Hash p = PyObject_Hash x) := by
  have hq := reachable_consistent hr
  obtain ⟨slots, g1, g2, g3⟩ := as_list_loop q hq.ptrs q.m_map (by
    intro kv hkv
    exact hq.live kv.1 kv.2 (T_HASH_DICT.find_of_mem hq.keys hkv))
  have hkeys : slots.map (fun s => s.elem.hash) = q.m_map.keys := by
    unfold T_HASH_DICT.keys
    rw [← g2, List.map_map]
    rfl
  have hslot : ∀ s ∈ slots, s ∈ q.m_elements ∧ s.elem.removed = false ∧
      s.elem.hash = PyObject_Hash s.elem.obj :=
    fun s hs => ⟨(g3 s hs).1, (g3 s hs).2, hq.hash s (g3 s hs).1⟩
  refine ⟨slots, g1, g2, hq.keys, hslot, ?_, ?_⟩
  · intro p hp
    obtain ⟨s, hs, hsp⟩ := List.mem_map.1 hp
    unfold contains
    rw [T_HASH_DICT.find_isSome_iff, ← hkeys, ← hsp, ← (hslot s hs).2.2]
    exact List.mem_map.2 ⟨s, hs, rfl⟩
  · intro x hx
    unfold contains at hx
    rw [T_HASH_DICT.find_isSome_iff, ← hkeys] at hx
    obtain ⟨s, hs, hsx⟩ := List.mem_map.1 hx
    refine ⟨s.elem.obj, List.mem_map.2 ⟨s, hs, rfl⟩, ?_⟩
    rw [← (hslot s hs).2.2]; exact hsx

/-- C7 (witness): the amended claim at the state after
`add(A,1); add(B,2); add(C,3); remove(B)`. -/
theorem C7_as_list_lists_index_witness :
    Reachable stateABC ∧
    ∃ slots : List Slot,
      stateABC.as_list = .ok (slots.map (fun s => s.elem.obj)) ∧
      slots.map (fun s => (s.elem.hash, s.ptr)) = stateABC.m_map ∧
      stateABC.m_map.keys.Nodup ∧
      (∀ s ∈ slots, s ∈ stateABC.m_elements ∧ s.elem.removed = false ∧
        s.elem.hash = PyObject_Hash s.elem.obj) ∧
      (∀ p ∈ slots.map (fun s => s.elem.obj), stateABC.contains p = true) ∧
      (∀ x, stateABC.contains x = true →
        ∃ p ∈ slots.map (fun s => s.elem.obj), PyObject_Hash p = PyObject_Hash x) :=
  have hr : Reachable stateABC :=
    reachable_of_run [Op.add objA 1, Op.add objB 2, Op.add objC 3, Op.remove objB]
      PriorityQueue.empty stateABC Reachable.empty (by decide)
  ⟨hr, C7_as_list_lists_index stateABC hr⟩

/-- C7 (counterexample): after `add(-1, 5)` the list is `[-1]`, but `contains(-2)` is true
as well, because `-2` has the hash of `-1`: the payloads with `contains` true
are not the listed ones. -/
theorem C7_as_list_counterexample :
    Reachable (PriorityQueue.empty.add objM1 5) ∧
    (PriorityQueue.empty.add objM1 5).as_list = .ok [objM1] ∧
    (PriorityQueue.empty.add objM1 5).contains objM2 = true ∧
    ¬ (∀ x, x ∈ [objM1] ↔ (PriorityQueue.empty.add objM1 5).contains x = true) :=
  ⟨Reachable.add objM1 5 Reachable.empty, by decide, by decide,
    fun h => absurd ((h objM2).2 (by decide)) (by decide)⟩

/-- C8 (amended): for every queue state and payload `x` whose key is absent from the
Index, `remove(x)` writes the line "Not found!" to the standard output, hands
nothing back to the caller, and changes neither the Index nor the store. -/
theorem C8_remove_absent_prints_and_keeps_state (q : PriorityQueue) (x : PyObj)
    (h : q.contains x = false) :
    q.remove x = .ok { ret := (), stdout := ["Not found!"], queue := q } := by
  rcases remove_cases q x with hc | hc | hc
  · exact hc.2
  · obtain ⟨p, hf, _⟩ := hc
    unfold contains at h
    rw [hf] at h; cases h
  · obtain ⟨p, hf, _⟩ := hc
    unfold contains at h
    rw [hf] at h; cases h

/-- C8 (witness): `remove(Z)` on the empty queue prints "Not found!" and leaves the queue
empty, so that `has_items()` stays false. -/
theorem C8_remove_absent_prints_and_keeps_state_witness :
    PriorityQueue.empty.contains objZ = false ∧
    PriorityQueue.empty.remove objZ =
      .ok { ret := (), stdout := ["Not found!"], queue := PriorityQueue.empty } ∧
    PriorityQueue.empty.has_items = false :=
  ⟨by decide, C8_remove_absent_prints_and_keeps_state PriorityQueue.empty objZ (by decide),
    by decide⟩

/-- C8 (counterexample): `remove(Z)` on the empty queue hands the caller the same value as
the successful `remove(Z)` after `add(Z,5)`: the miss is not signalled, it only
shows as a line on the standard output. -/
theorem C8_remove_miss_not_signalled :
    (PriorityQueue.empty.remove objZ).map RemoveOutcome.ret =
      ((PriorityQueue.empty.add objZ 5).remove objZ).map RemoveOutcome.ret ∧
    (PriorityQueue.empty.remove objZ).map RemoveOutcome.stdout = .ok ["Not found!"] ∧
    ((PriorityQueue.empty.add objZ 5).remove objZ).map RemoveOutcome.stdout = .ok [] := by
  decide

/-- C9 (amended): in every queue state in which the Index is not empty and every slot of the
store is soft-deleted (or the store is empty), `pop()` discards the soft-deleted
slots and then reads `back()` of the empty vector, which is undefined behaviour;
it does not return the empty sentinel.  No such state is reachable. -/
theorem C9_pop_exhausted_store_faults (q : PriorityQueue) (hit : q.has_items = true)
    (hall : ∀ s ∈ q.m_elements, s.elem.removed = true) :
    q.pop = .error Fault.emptyVector ∧ ¬ Reachable q := by
  constructor
  · unfold pop
    simp only [hit, Bool.not_true, Bool.false_eq_true, if_false,
      popLoop_all_removed _ q hall]
  · intro hr
    obtain ⟨k, p, hf⟩ := (has_items_iff q).1 hit
    obtain ⟨s, hs, _, _, hl⟩ := (reachable_consistent hr).live k p hf
    rw [hall s hs] at hl; cases hl

/-- C9 (witness): the amended claim at a state with one Index entry and one soft-deleted
slot. -/
theorem C9_pop_exhausted_store_faults_witness :
    stateOrphan.has_items = true ∧ (∀ s ∈ stateOrphan.m_elements, s.elem.removed = true) ∧
    stateOrphan.pop = .error Fault.emptyVector ∧ ¬ Reachable stateOrphan :=
  ⟨by decide, by decide, C9_pop_exhausted_store_faults stateOrphan (by decide) (by decide)⟩

/-- C9 (counterexample): with one Index entry and an empty store, and likewise with a store
whose only slot is soft-deleted, `pop()` faults instead of returning the empty
sentinel. -/
theorem C9_pop_fault_counterexample :
    ({ m_map := [(101, 7)], m_elements := [] } : PriorityQueue).pop =
      .error Fault.emptyVector ∧
    stateOrphan.has_items = true ∧ (∀ s ∈ stateOrphan.m_elements, s.elem.removed = true) ∧
    stateOrphan.pop = .error Fault.emptyVector ∧
    ¬ ∃ q2, stateOrphan.pop = .ok (none, q2) := by
  have h : stateOrphan.pop = .error Fault.emptyVector := by decide
  refine ⟨by decide, by decide, by decide, h, ?_⟩
  rintro ⟨q2, hq2⟩
  rw [h] at hq2
  cases hq2

/-- C10: INV1 holds in every state reachable from the empty queue by add, remove and pop:
the keys of the Index are pairwise different and every entry points to exactly
one slot of the store, whose record carries the entry's key and has
`removed == false`. -/
theorem C10_inv1_invariant (q : PriorityQueue) (hr : Reachable q) : INV1 q := by
  have hq := reachable_consistent hr
  refine ⟨hq.keys, ?_⟩
  intro kv hkv
  obtain ⟨s, hs, h1, h2, h3⟩ := hq.live kv.1 kv.2 (T_HASH_DICT.find_of_mem hq.keys hkv)
  refine ⟨s, hs, ?_, h2, h3⟩
  rw [← h1]
  exact filter_ptr_eq_singleton hq.ptrs hs

/-- C10 (witness): INV1 at the state after `add(A,1); add(A,5)`. -/
theorem C10_inv1_invariant_witness :
    Reachable ((PriorityQueue.empty.add objA 1).add objA 5) ∧
    INV1 ((PriorityQueue.empty.add objA 1).add objA 5) :=
  ⟨Reachable.add objA 5 (Reachable.add objA 1 Reachable.empty),
    C10_inv1_invariant _ (Reachable.add objA 5 (Reachable.add objA 1 Reachable.empty))⟩

/-- C11: in every reachable state, a record of the store whose removed flag is true is
still in the store, unchanged, after any `add` and any `remove`; after a `pop`
it is either still in the store or no slot carries its pointer any more
(it was extracted); in each case a slot with its pointer has `removed == true`.
A payload returned by `pop` is the payload of the one extracted record whose
flag was false; all other records extracted by that call had the flag set. -/
theorem C11_soft_deletion_is_terminal (q : PriorityQueue) (hr : Reachable q) (s : Slot)
    (hs : s ∈ q.m_elements) (hrem : s.elem.removed = true) :
    (∀ x sc, s ∈ (q.add x sc).m_elements ∧
        ∀ t ∈ (q.add x sc).m_elements, t.ptr = s.ptr → t.elem.removed = true) ∧
    (∀ x r, q.remove x = .ok r → s ∈ r.queue.m_elements ∧
        ∀ t ∈ r.queue.m_elements, t.ptr = s.ptr → t.elem.removed = true) ∧
    (∀ o q2, q.pop = .ok (o, q2) →
        (s ∈ q2.m_elements ∨ ∀ t ∈ q2.m_elements, t.ptr ≠ s.ptr) ∧
        (∀ t ∈ q2.m_elements, t.ptr = s.ptr → t.elem.removed = true) ∧
        ∀ p, o = some p →
          ∃ live dead, q.m_elements.Perm (live :: (dead ++ q2.m_elements)) ∧
            live.elem.removed = false ∧ live.elem.obj = p ∧
            ∀ t ∈ dead, t.elem.removed = true) := by
  have hq := reachable_consistent hr
  have key : ∀ q2 : PriorityQueue, Consistent q2 → s ∈ q2.m_elements →
      ∀ t ∈ q2.m_elements, t.ptr = s.ptr → t.elem.removed = true := by
    intro q2 hq2 hs2 t ht hpt
    rw [eq_of_ptr_eq hq2.ptrs ht hs2 hpt]; exact hrem
  refine ⟨?_, ?_, ?_⟩
  · intro x sc
    have hmem : s ∈ (q.add x sc).m_elements :=
      (add_elements_perm q x sc).mem_iff.2 (List.mem_cons_of_mem _ hs)
    exact ⟨hmem, key _ (consistent_add hq x sc) hmem⟩
  · intro x r hx
    have hmem : s ∈ r.queue.m_elements := by
      rcases remove_cases q x with hc | hc | hc
      · rw [hc.2] at hx; cases hx; exact hs
      · obtain ⟨p, _, _, h3⟩ := hc
        rw [h3] at hx; cases hx
        exact mem_markRemoved_of_removed hs hrem
      · obtain ⟨p, _, _, h3⟩ := hc
        rw [h3] at hx; cases hx
    exact ⟨hmem, key _ (consistent_remove hq hx) hmem⟩
  · intro o q2 hp
    rcases pop_cases hp with ⟨_, ho, e⟩ | ⟨_, obj, ho, hl⟩
    · subst e
      refine ⟨Or.inl hs, key _ hq hs, ?_⟩
      intro p hop
      rw [ho] at hop; cases hop
    · obtain ⟨s0, dead, g1, g2, _, _, g5, g6, _⟩ := popLoop_spec _ q obj q2 hl
      have hsub : ∀ t ∈ q2.m_elements, t ∈ q.m_elements := fun t ht =>
        g6.mem_iff.2 (List.mem_cons_of_mem _ (List.mem_append_right _ ht))
      have hclose : ∀ t ∈ q2.m_elements, t.ptr = s.ptr → t = s := fun t ht hpt =>
        eq_of_ptr_eq hq.ptrs (hsub t ht) hs hpt
      refine ⟨?_, ?_, ?_⟩
      · by_cases hin : s ∈ q2.m_elements
        · exact Or.inl hin
        · right
          intro t ht hpt
          exact hin (hclose t ht hpt ▸ ht)
      · intro t ht hpt
        rw [hclose t ht hpt]; exact hrem
      · intro p hop
        rw [ho] at hop
        exact ⟨s0, dead, g6, g1, by rw [← g2]; exact Option.some.inj hop, g5⟩

/-- C11 (witness): the claim at the state after `add(A,1); add(B,2); add(C,3); remove(B)`
for the soft-deleted record of `B`. -/
theorem C11_soft_deletion_is_terminal_witness :
    Reachable stateABC ∧ slotB ∈ stateABC.m_elements ∧ slotB.elem.removed = true ∧
    ((∀ x sc, slotB ∈ (stateABC.add x sc).m_elements ∧
        ∀ t ∈ (stateABC.add x sc).m_elements, t.ptr = slotB.ptr → t.elem.removed = true) ∧
    (∀ x r, stateABC.remove x = .ok r → slotB ∈ r.queue.m_elements ∧
        ∀ t ∈ r.queue.m_elements, t.ptr = slotB.ptr → t.elem.removed = true) ∧
    (∀ o q2, stateABC.pop = .ok (o, q2) →
        (slotB ∈ q2.m_elements ∨ ∀ t ∈ q2.m_elements, t.ptr ≠ slotB.ptr) ∧
        (∀ t ∈ q2.m_elements, t.ptr = slotB.ptr → t.elem.removed = true) ∧
        ∀ p, o = some p →
          ∃ live dead, stateABC.m_elements.Perm (live :: (dead ++ q2.m_elements)) ∧
            live.elem.removed = false ∧ live.elem.obj = p ∧
            ∀ t ∈ dead, t.elem.removed = true)) ∧
    run stateABC [Op.pop, Op.pop] = ([some objA, some objC], .ok PriorityQueue.empty) :=
  have hr : Reachable stateABC :=
    reachable_of_run [Op.add objA 1, Op.add objB 2, Op.add objC 3, Op.remove objB]
      PriorityQueue.empty stateABC Reachable.empty (by decide)
  ⟨hr, by decide, rfl, C11_soft_deletion_is_terminal stateABC hr slotB (by decide) rfl,
    by decide⟩

/-- C12 (amended): in every state reachable from the empty queue by add, remove and pop
with scores that are numbers (no call of `add` passes a NaN), whenever
`m_elements` is non-empty its root (first entry) holds the minimum score among
all records the store contains, live or soft-deleted. -/
theorem C12_root_holds_minimum (q : PriorityQueue) (hr : ReachableNum q) (root : Slot)
    (hroot : q.m_elements.head? = some root) :
    ∀ t ∈ q.m_elements, root.elem.score.le t.elem.score = true :=
  head_le_of_is_heap (reachableNum_ordered hr).nonan (reachableNum_ordered hr).heap hroot

/-- C12 (witness): the amended claim at the state after
`add(A,1); add(B,2); add(C,3); remove(B)`, whose root is the record of `A`. -/
theorem C12_root_holds_minimum_witness :
    ReachableNum stateABC ∧
    stateABC.m_elements.head? =
      some { ptr := 1, elem := { score := 1, obj := objA, removed := false, hash := 101 } } ∧
    ∀ t ∈ stateABC.m_elements, (1 : Score).le t.elem.score = true :=
  have hr : ReachableNum stateABC :=
    reachableNum_of_run [Op.add objA 1, Op.add objB 2, Op.add objC 3, Op.remove objB]
      PriorityQueue.empty stateABC ReachableNum.empty (by decide) (by decide)
  ⟨hr, rfl, C12_root_holds_minimum stateABC hr _ rfl⟩

/-- C12 (counterexample): after `add(A,1); add(B,2)` the root of `m_elements` is the record
of `A` with score 1, while the store also holds the record of `B` with score 2:
the root does not hold the maximum.  And after
`add(A,2); add(B,NaN); add(C,1); add(D,0)` the root is the record of `C` with
score 1, while the store holds the record of `A` with score 2 and the record
of `D` with score 0: with a NaN in the store the root holds neither the
maximum nor the minimum. -/
theorem C12_root_maximum_counterexample :
    (Reachable stateAB ∧
      stateAB.m_elements.head? =
        some { ptr := 1, elem := { score := 1, obj := objA, removed := false, hash := 101 } } ∧
      ¬ (∀ root, stateAB.m_elements.head? = some root →
          ∀ t ∈ stateAB.m_elements, t.elem.score.le root.elem.score = true)) ∧
    (Reachable stateNaN ∧
      stateNaN.m_elements.head? =
        some { ptr := 3, elem := { score := 1, obj := objC, removed := false, hash := 103 } } ∧
      ¬ (∀ root, stateNaN.m_elements.head? = some root →
          ∀ t ∈ stateNaN.m_elements, t.elem.score.le root.elem.score = true) ∧
      ¬ (∀ root, stateNaN.m_elements.head? = some root →
          ∀ t ∈ stateNaN.m_elements, root.elem.score.le t.elem.score = true)) := by
  refine ⟨⟨reachable_of_run [Op.add objA 1, Op.add objB 2] PriorityQueue.empty stateAB
    Reachable.empty (by decide), rfl, ?_⟩,
    ⟨reachable_of_run [Op.add objA 2, Op.add objB Score.nan, Op.add objC 1, Op.add objD 0]
      PriorityQueue.empty stateNaN Reachable.empty (by decide), rfl, ?_, ?_⟩⟩
  · intro h
    have := h _ rfl
      { ptr := 2, elem := { score := 2, obj := objB, removed := false, hash := 102 } }
      (by decide)
    revert this
    decide
  · intro h
    have := h _ rfl
      { ptr := 1, elem := { score := 2, obj := objA, removed := false, hash := 101 } }
      (by decide)
    revert this
    decide
  · intro h
    have := h _ rfl
      { ptr := 4, elem := { score := 0, obj := objD, removed := false, hash := 104 } }
      (by decide)
    revert this
    decide

/-- C13: in every queue state whose Index is a map (one entry per key) and holds, under
the key of `x`, a pointer to a record of the store, `remove(x)` succeeds and
prints nothing; afterwards the Index has no entry for that key, every other
entry is unchanged and the Index is smaller by one; `m_elements` has the same
length, and position by position the same pointer, score, payload and key, with
`removed` set to true where the pointer is the one the Index held and
unchanged everywhere else. -/
theorem C13_remove_present (q : PriorityQueue) (x : PyObj) (p : Nat)
    (hkeys : q.m_map.keys.Nodup) (hfind : q.m_map.find (PyObject_Hash x) = some p)
    (hptr : ∃ s ∈ q.m_elements, s.ptr = p) :
    ∃ r, q.remove x = .ok r ∧ r.stdout = [] ∧
      r.queue.m_map.find (PyObject_Hash x) = none ∧
      (∀ k, k ≠ PyObject_Hash x → r.queue.m_map.find k = q.m_map.find k) ∧
      (∀ kv, kv ∈ r.queue.m_map ↔ kv ∈ q.m_map ∧ kv.1 ≠ PyObject_Hash x) ∧
      r.queue.m_map.length + 1 = q.m_map.length ∧
      r.queue.m_elements.length = q.m_elements.length ∧
      ∀ (i : Nat) (s : Slot), q.m_elements[i]? = some s →
        ∃ t, r.queue.m_elements[i]? = some t ∧ t.ptr = s.ptr ∧
          t.elem.score = s.elem.score ∧ t.elem.obj = s.elem.obj ∧
          t.elem.hash = s.elem.hash ∧
          (s.ptr = p → t.elem.removed = true) ∧ (s.ptr ≠ p → t = s) := by
  rcases remove_cases q x with hc | hc | hc
  · rw [hc.1] at hfind; cases hfind
  · obtain ⟨p2, hf2, _, h3⟩ := hc
    rw [hfind] at hf2
    have hp : p2 = p := (Option.some.inj hf2).symm
    subst hp
    refine ⟨_, h3, rfl, T_HASH_DICT.find_erase_self _ _,
      fun k hk => T_HASH_DICT.find_erase_ne _ _ hk, ?_,
      T_HASH_DICT.length_erase_of_find hkeys hfind, markRemoved_length _ _, ?_⟩
    · intro kv
      simp only [T_HASH_DICT.erase, List.mem_filter, decide_eq_true_eq]
    · intro i s hi
      refine ⟨if s.ptr = p2 then { s with elem := { s.elem with removed := true } } else s,
        ?_, ?_⟩
      · simp only [markRemoved, List.getElem?_map, hi, Option.map_some']
      · by_cases h : s.ptr = p2
        · simp [h]
        · simp [h]
  · obtain ⟨p2, hf2, hno, _⟩ := hc
    rw [hfind] at hf2
    obtain ⟨s, hs, hsp⟩ := hptr
    exact absurd (hsp.trans (Option.some.inj hf2)) (hno s hs)

/-- C13 (witness): `remove(C)` at the state after `add(A,1); add(B,2); add(C,3); remove(B)`:
the Index keeps only the entry of `A`, and the store keeps its three slots, the
record of `C` now soft-deleted. -/
theorem C13_remove_present_witness :
    stateABC.m_map.keys.Nodup ∧ stateABC.m_map.find (PyObject_Hash objC) = some 3 ∧
    (∃ s ∈ stateABC.m_elements, s.ptr = 3) ∧
    (∃ r, stateABC.remove objC = .ok r ∧ r.stdout = [] ∧
      r.queue.m_map.find (PyObject_Hash objC) = none ∧
      (∀ k, k ≠ PyObject_Hash objC → r.queue.m_map.find k = stateABC.m_map.find k) ∧
      (∀ kv, kv ∈ r.queue.m_map ↔ kv ∈ stateABC.m_map ∧ kv.1 ≠ PyObject_Hash objC) ∧
      r.queue.m_map.length + 1 = stateABC.m_map.length ∧
      r.queue.m_elements.length = stateABC.m_elements.length ∧
      ∀ (i : Nat) (s : Slot), stateABC.m_elements[i]? = some s →
        ∃ t, r.queue.m_elements[i]? = some t ∧ t.ptr = s.ptr ∧
          t.elem.score = s.elem.score ∧ t.elem.obj = s.elem.obj ∧
          t.elem.hash = s.elem.hash ∧
          (s.ptr = 3 → t.elem.removed = true) ∧ (s.ptr ≠ 3 → t = s)) ∧
    stateABC.remove objC = .ok
      { ret := (), stdout := [],
        queue :=
          { m_map := [(101, 1)],
            m_elements :=
              [ { ptr := 1, elem := { score := 1, obj := objA, removed := false, hash := 101 } },
                { ptr := 2, elem := { score := 2, obj := objB, removed := true, hash := 102 } },
                { ptr := 3, elem := { score := 3, obj := objC, removed := true, hash := 103 } } ] } } :=
  ⟨by decide, by decide, by decide,
    C13_remove_present stateABC objC 3 (by decide) (by decide) (by decide), by decide⟩

/-- C14: in every queue state whose Index is empty, `pop()` returns the empty sentinel and
leaves the queue as it is: `m_elements`, with whatever records it holds, is
identical before and after, and the Index stays empty. -/
theorem C14_pop_on_empty_index (q : PriorityQueue) (h : q.m_map = []) :
    q.pop = .ok (none, q) ∧ q.has_items = false := by
  have hit : q.has_items = false := by
    unfold has_items; rw [h]; rfl
  exact ⟨pop_of_not_has_items hit, hit⟩

/-- C14 (witness): `pop()` with an empty Index and a soft-deleted record left in the store
(after `add(A,5); remove(A)`); and after `add(A,5); add(B,10); pop(); pop()` a
third `pop()` returns the empty sentinel. -/
theorem C14_pop_on_empty_index_witness :
    stateAremoved.m_map = [] ∧
    (stateAremoved.pop = .ok (none, stateAremoved) ∧ stateAremoved.has_items = false) ∧
    run PriorityQueue.empty [Op.add objA 5, Op.remove objA] = ([], .ok stateAremoved) ∧
    run PriorityQueue.empty [Op.add objA 5, Op.add objB 10, Op.pop, Op.pop, Op.pop] =
      ([some objA, some objB, none], .ok PriorityQueue.empty) :=
  ⟨rfl, C14_pop_on_empty_index stateAremoved rfl, by decide, by decide⟩

/-- C15: in every reachable state with `has_items()` true, a `pop()` that returns the
payload `p` takes out of `m_elements` one record `s` with `removed == false`
that carries `p`, and besides it only records with `removed == true`; all other
records stay in the store unchanged (as multisets, the old store is `s`, the
discarded records and the new store); afterwards the Index has no entry for the
key of `s`, and every other Index entry is unchanged. -/
theorem C15_pop_frame (q : PriorityQueue) (hr : Reachable q) (hit : q.has_items = true)
    (p : PyObj) (q2 : PriorityQueue) (hpop : q.pop = .ok (some p, q2)) :
    ∃ s dead, q.m_elements.Perm (s :: (dead ++ q2.m_elements)) ∧
      s.elem.removed = false ∧ s.elem.obj = p ∧ s.elem.hash = PyObject_Hash p ∧
      (∀ t ∈ dead, t.elem.removed = true) ∧
      q2.m_map.find s.elem.hash = none ∧
      (∀ k, k ≠ s.elem.hash → q2.m_map.find k = q.m_map.find k) ∧
      (∀ kv, kv ∈ q2.m_map ↔ kv ∈ q.m_map ∧ kv.1 ≠ s.elem.hash) := by
  have hq := reachable_consistent hr
  rcases pop_cases hpop with ⟨hf, _, _⟩ | ⟨_, obj, ho, hl⟩
  · rw [hit] at hf; cases hf
  · obtain ⟨s, dead, g1, g2, _, g4, g5, g6, _⟩ := popLoop_spec _ q obj q2 hl
    have hobj : s.elem.obj = p := by rw [← g2]; exact (Option.some.inj ho).symm
    have hs : s ∈ q.m_elements := g6.mem_iff.2 (List.mem_cons_self _ _)
    refine ⟨s, dead, g6, g1, hobj, by rw [hq.hash s hs, hobj], g5, ?_, ?_, ?_⟩
    · rw [g4]; exact T_HASH_DICT.find_erase_self _ _
    · intro k hk
      rw [g4]; exact T_HASH_DICT.find_erase_ne _ _ hk
    · intro kv
      rw [g4]
      simp only [T_HASH_DICT.erase, List.mem_filter, decide_eq_true_eq]

/-- C15 (witness): `pop()` at the state after `add(A,1); add(B,2); add(C,3); remove(A)`
discards the soft-deleted record of `A`, returns `B` and leaves the record of
`C`. -/
theorem C15_pop_frame_witness :
    Reachable stateBC ∧ stateBC.has_items = true ∧
    stateBC.pop = .ok (some objB,
      { m_map := [(103, 3)],
        m_elements :=
          [ { ptr := 3, elem := { score := 3, obj := objC, removed := false, hash := 103 } } ] }) ∧
    ∃ s dead, stateBC.m_elements.Perm
        (s :: (dead ++
          [ { ptr := 3, elem := { score := 3, obj := objC, removed := false, hash := 103 } } ])) ∧
      s.elem.removed = false ∧ s.elem.obj = objB ∧ s.elem.hash = PyObject_Hash objB ∧
      (∀ t ∈ dead, t.elem.removed = true) ∧
      T_HASH_DICT.find s.elem.hash [(103, 3)] = none ∧
      (∀ k, k ≠ s.elem.hash → T_HASH_DICT.find k [(103, 3)] = stateBC.m_map.find k) ∧
      (∀ kv, kv ∈ ([(103, 3)] : T_HASH_DICT) ↔ kv ∈ stateBC.m_map ∧ kv.1 ≠ s.elem.hash) :=
  have hr : Reachable stateBC :=
    reachable_of_run [Op.add objA 1, Op.add objB 2, Op.add objC 3, Op.remove objA]
      PriorityQueue.empty stateBC Reachable.empty (by decide)
  ⟨hr, by decide, by decide,
    C15_pop_frame stateBC hr (by decide) objB
      { m_map := [(103, 3)],
        m_elements :=
          [ { ptr := 3, elem := { score := 3, obj := objC, removed := false, hash := 103 } } ] }
      (by decide)⟩

/-- C16: in every queue state, `add(x, s)` puts exactly one new record into `m_elements`,
with score `s`, payload `x`, the key of `x` and `removed == false`, under a
pointer no stored record has, and keeps every stored record unchanged (the new
store is a rearrangement of the new record and the old store); the Index entry
of the key of `x` points to the new record, which is the only one under that
pointer, and every other Index entry is unchanged. -/
theorem C16_add_frame (q : PriorityQueue) (x : PyObj) (s : Score) :
    ∃ e : Slot,
      e.elem = { score := s, obj := x, removed := false, hash := PyObject_Hash x } ∧
      (∀ t ∈ q.m_elements, t.ptr ≠ e.ptr) ∧
      (q.add x s).m_elements.Perm (e :: q.m_elements) ∧
      (q.add x s).m_elements.length = q.m_elements.length + 1 ∧
      (q.add x s).m_map.find (PyObject_Hash x) = some e.ptr ∧
      (q.add x s).m_elements.filter (fun t => decide (t.ptr = e.ptr)) = [e] ∧
      (∀ k, k ≠ PyObject_Hash x → (q.add x s).m_map.find k = q.m_map.find k) ∧
      (∀ kv, kv.1 ≠ PyObject_Hash x → (kv ∈ (q.add x s).m_map ↔ kv ∈ q.m_map)) := by
  have hperm := add_elements_perm q x s
  have hfresh : ∀ t ∈ q.m_elements, t.ptr ≠ q.alloc := fun t ht => by
    have := alloc_fresh q t ht
    omega
  refine ⟨⟨q.alloc, PriorityQueueElement.create s x (PyObject_Hash x)⟩, rfl, hfresh, hperm,
    ?_, ?_, ?_, ?_, ?_⟩
  · rw [hperm.length_eq]; rfl
  · rw [add_map]; exact T_HASH_DICT.find_assign_self _ _ _
  · have h1 := hperm.filter (fun t => decide (t.ptr = q.alloc))
    have h2 : q.m_elements.filter (fun t => decide (t.ptr = q.alloc)) = [] := by
      apply List.filter_eq_nil_iff.2
      intro t ht
      simpa using hfresh t ht
    simp only [List.filter_cons, decide_True, if_true, h2] at h1
    exact List.perm_singleton.1 h1
  · intro k hk
    rw [add_map]; exact T_HASH_DICT.find_assign_ne _ _ _ hk
  · intro kv hkv
    rw [add_map]
    simp only [T_HASH_DICT.assign, T_HASH_DICT.erase, List.mem_cons, List.mem_filter,
      decide_eq_true_eq]
    constructor
    · rintro (h | h)
      · rw [h] at hkv; exact absurd rfl hkv
      · exact h.1
    · intro h
      exact Or.inr ⟨h, hkv⟩

/-- C17 (the code at the failing input): the state after
`add(A,1); add(A,5); pop(); add(B,9)` is reachable and `has_items()` is true.
The store holds a live record and the loop of `pop()` does not meet an empty
vector, but the call does not come to its return: the first record taken out
is the live record of `A` with score 5, the Index has no entry for its key
since the earlier `pop()` erased it, and with whatever bound on the
iterations the loop ends in `erase(end())`. -/
theorem C17_pop_loop_ends_in_erase_end :
    (run PriorityQueue.empty [Op.add objA 1, Op.add objA 5, Op.pop, Op.add objB 9]).2 =
      .ok stateAApopB ∧
    Reachable stateAApopB ∧ stateAApopB.has_items = true ∧
    (∃ s ∈ stateAApopB.m_elements, s.elem.removed = false) ∧
    (std.pop_heap PriorityQueueElement.compare stateAApopB.m_elements).getLast? =
      some { ptr := 2, elem := { score := 5, obj := objA, removed := false, hash := 101 } } ∧
    stateAApopB.m_map.find 101 = none ∧
    (∀ n, popLoop (n + 1) stateAApopB = .error Fault.eraseEnd) ∧
    stateAApopB.pop = .error Fault.eraseEnd ∧
    stateAApopB.pop ≠ .error Fault.emptyVector ∧
    ∀ r, stateAApopB.pop ≠ .ok r := by
  have hrun : (run PriorityQueue.empty
      [Op.add objA 1, Op.add objA 5, Op.pop, Op.add objB 9]).2 = .ok stateAApopB := by decide
  have hlast : (std.pop_heap PriorityQueueElement.compare stateAApopB.m_elements).getLast? =
      some { ptr := 2, elem := { score := 5, obj := objA, removed := false, hash := 101 } } := by
    decide
  have hfind : stateAApopB.m_map.find 101 = none := by decide
  have hp : stateAApopB.pop = .error Fault.eraseEnd := by decide
  refine ⟨hrun, reachable_of_run _ PriorityQueue.empty stateAApopB Reachable.empty hrun,
    by decide, by decide, hlast, hfind, ?_, hp, ?_, ?_⟩
  · intro n
    simp only [popLoop, hlast, Bool.not_false, if_true, hfind]
  · rw [hp]; intro e; cases e
  · intro r; rw [hp]; intro e; cases e

/-- C18: in every state reachable from the empty queue with `add(x, s)` only called while
`contains(x)` is false, every record of the store with `removed == false` is
the one the Index holds for its key (INV2); and when `has_items()` is true,
`pop()` returns the payload of a live record `s` for which
`m_map.find(s.hash)` is the entry pointing to `s` itself, and the erase removes
that entry, so that the Index is smaller by exactly one. -/
theorem C18_fresh_adds_keep_index_exact (q : PriorityQueue) (hr : ReachableFresh q) :
    INV2 q ∧
    (q.has_items = true →
      ∃ s ∈ q.m_elements, ∃ q2, q.pop = .ok (some s.elem.obj, q2) ∧
        s.elem.removed = false ∧
        q.m_map.find s.elem.hash = some s.ptr ∧ (s.elem.hash, s.ptr) ∈ q.m_map ∧
        q2.m_map = T_HASH_DICT.erase s.elem.hash q.m_map ∧
        (s.elem.hash, s.ptr) ∉ q2.m_map ∧
        q2.m_map.length + 1 = q.m_map.length) := by
  have h2 := reachableFresh_inv2 hr
  have hq := reachable_consistent (reachableFresh_reachable hr)
  refine ⟨h2, ?_⟩
  intro hit
  obtain ⟨s, hs, q2, g1, g2, g3, g4⟩ := pop_of_inv2 hq h2 hit
  refine ⟨s, hs, q2, g1, g2, g3, T_HASH_DICT.mem_of_find g3, g4, ?_, ?_⟩
  · rw [g4]
    simp [T_HASH_DICT.erase, List.mem_filter]
  · rw [g4]
    exact T_HASH_DICT.length_erase_of_find hq.keys g3

/-- C18 (witness): the claim at the state after `add(A,1); add(B,2); add(C,3); remove(B)`,
where no key was added twice. -/
theorem C18_fresh_adds_keep_index_exact_witness :
    ReachableFresh stateABC ∧
    (INV2 stateABC ∧
    (stateABC.has_items = true →
      ∃ s ∈ stateABC.m_elements, ∃ q2, stateABC.pop = .ok (some s.elem.obj, q2) ∧
        s.elem.removed = false ∧
        stateABC.m_map.find s.elem.hash = some s.ptr ∧
        (s.elem.hash, s.ptr) ∈ stateABC.m_map ∧
        q2.m_map = T_HASH_DICT.erase s.elem.hash stateABC.m_map ∧
        (s.elem.hash, s.ptr) ∉ q2.m_map ∧
        q2.m_map.length + 1 = stateABC.m_map.length)) ∧
    stateABC.has_items = true :=
  have hr : ReachableFresh stateABC :=
    ReachableFresh.remove objB (r := { ret := (), stdout := [], queue := stateABC })
      (ReachableFresh.add objC 3
        (ReachableFresh.add objB 2
          (ReachableFresh.add objA 1 ReachableFresh.empty (by decide)) (by decide))
        (by decide))
      (by decide)
  ⟨hr, C18_fresh_adds_keep_index_exact stateABC hr, by decide⟩

/-- C19 (the code at the failing input): the state after
`add(A,1); add(A,5); pop(); add(B,9)` is reachable, its `m_elements` is a heap
with respect to `compare` and `has_items()` is true, but `pop()` returns no
payload: it takes out the live record of `A`, for whose key the Index has no
entry, and calls `erase(end())`. -/
theorem C19_pop_faults_on_reachable_heap :
    Reachable stateAApopB ∧
    std.is_heap PriorityQueueElement.compare stateAApopB.m_elements ∧
    stateAApopB.has_items = true ∧
    stateAApopB.pop = .error Fault.eraseEnd ∧
    ¬ ∃ p q2, stateAApopB.pop = .ok (some p, q2) := by
  have hr : Reachable stateAApopB :=
    reachable_of_run [Op.add objA 1, Op.add objA 5, Op.pop, Op.add objB 9]
      PriorityQueue.empty stateAApopB Reachable.empty (by decide)
  have hn : ReachableNum stateAApopB :=
    reachableNum_of_run [Op.add objA 1, Op.add objA 5, Op.pop, Op.add objB 9]
      PriorityQueue.empty stateAApopB ReachableNum.empty (by decide) (by decide)
  have hp : stateAApopB.pop = .error Fault.eraseEnd := by decide
  refine ⟨hr, (reachableNum_ordered hn).heap, by decide, hp, ?_⟩
  rintro ⟨p, q2, h⟩
  rw [hp] at h
  cases h

end PriorityQueue
